import Mathlib

/-!
Verification of `mapAndMergeIsolatedUidsToHostUid` from
`cmds/statsd/src/external/puller_util.cpp`.

The function normalizes isolated uids to host uids inside one batch of pulled
`LogEvent`s, sorts the batch with a bespoke comparator, and merges adjacent
records that differ only on additive fields.

The record/field representation (`FieldValue.h`), the uid map and the atom
registries (`StatsPullerManager::kAllPullAtomInfo`,
`AtomsInfo::kAtomsWithAttributionChain`, `AtomsInfo::kAtomsWithUidField`) are
external collaborators of this translation unit; they are modelled from the
specification at their interface boundary, as noted on each definition.
-/

namespace PullerUtil

/-- Modelled from the spec: a field value is typed ("integer, string, float,
byte-blob, etc.").  The claims only distinguish integer values (the only type
the normalizer rewrites and the merger sums) from non-integer values, so one
non-integer kind, a string as a list of characters, stands for the rest. -/
inductive Value where
  | intV (v : Int)
  | strV (s : List Char)
  deriving DecidableEq, Repr, Inhabited

/-- Modelled from the spec: a FieldPath "encodes a position, and may encode
nesting depth (for repeated identity-chain structures)".  `pos` is the
depth-0 position (`Field::getPosAtDepth(0)` in the source), `sub` stands for
the deeper position markers, and `uidSlot` records whether this path is
recognized as the identity slot of an attribution-chain entry. -/
structure FieldPath where
  pos : Nat
  sub : Nat
  uidSlot : Bool
  deriving DecidableEq, Repr, Inhabited

/-- A (FieldPath, Value) pair, mirroring `FieldValue` with its `mField` and
`mValue` members. -/
structure FieldValue where
  mField : FieldPath
  mValue : Value
  deriving DecidableEq, Repr, Inhabited

/-- A record: `LogEvent` restricted to the members this transform reads,
its tag (`GetTagId()`) and its ordered field values (`getValues()`). -/
structure LogEvent where
  tagId : Int
  values : List FieldValue
  deriving DecidableEq, Repr, Inhabited

/-- Reads the `int_value` member of the value union; meaningful only behind
an integer-type check, as in the source. -/
def Value.intValue : Value → Int
  | .intV v => v
  | .strV _ => 0

/-- Mirrors `Value::setInt`: the value becomes the given integer. -/
def Value.setInt (_self : Value) (i : Int) : Value := .intV i

/-- Mirrors `getType() == INT`. -/
def Value.isInt : Value → Bool
  | .intV _ => true
  | .strV _ => false

/-- Modelled from the spec: `Value::operator+=` ("summation semantics:
integer/float values at additive positions are summed using the value's
native arithmetic"); on a type mismatch the receiver is left unchanged. -/
def Value.addAssign : Value → Value → Value
  | .intV a, .intV b => .intV (a + b)
  | v, _ => v

/-- Strict order on characters, by code point. -/
def chLt (a b : Char) : Bool := decide (a < b)

/-- Lexicographic strict order on strings (lists of characters). -/
def strLtB : List Char → List Char → Bool
  | [], [] => false
  | [], _ :: _ => true
  | _ :: _, [] => false
  | a :: as, b :: bs => if a ≠ b then chLt a b else strLtB as bs

/-- Modelled from the spec: `Value::operator<`, a strict total order on
values, comparing the type tag first and then the payload. -/
def valueLt : Value → Value → Bool
  | .intV a, .intV b => decide (a < b)
  | .intV _, .strV _ => true
  | .strV _, .intV _ => false
  | .strV a, .strV b => strLtB a b

/-- Modelled from the spec: `Field::operator<`, a strict total order on
field paths (the source compares the packed 32-bit encoding; here the
components are compared lexicographically). -/
def pathLt (a b : FieldPath) : Bool :=
  decide (a.pos < b.pos) ||
    (a.pos == b.pos &&
      (decide (a.sub < b.sub) ||
        (a.sub == b.sub && (!a.uidSlot && b.uidSlot))))

/-- Modelled from the spec: `FieldValue::operator<`, lexicographic on the
(FieldPath, Value) pair. -/
def fvLt (a b : FieldValue) : Bool :=
  pathLt a.mField b.mField || (a.mField == b.mField && valueLt a.mValue b.mValue)

/-- The comparator passed to `sort` in step 2 of the source: shorter records
first, otherwise the first index whose `FieldValue`s differ decides via
`FieldValue::operator<`; fully equal sequences compare `false`. -/
def lexFvLt : List FieldValue → List FieldValue → Bool
  | a :: as, b :: bs => if a ≠ b then fvLt a b else lexFvLt as bs
  | _, _ => false

/-- The sort comparator lambda from the source (`lhs->size()` is the number
of field values). -/
def eventLt (a b : LogEvent) : Bool :=
  if a.values.length ≠ b.values.length then decide (a.values.length < b.values.length)
  else lexFvLt a.values b.values

/-- The complement preorder of the comparator: `a` may precede `b` exactly
when the comparator does not order `b` strictly before `a`. -/
def eLe (a b : LogEvent) : Prop := eventLt b a = false

instance : DecidableRel eLe := fun a b => inferInstanceAs (Decidable (eventLt b a = false))

/-- Step 2 of the source, `sort(data.begin(), data.end(), cmp)`: `std::sort`
guarantees a permutation of the input ordered by the comparator.  It is
modelled by insertion sort with the complement preorder `eLe`; comparator
ties are fully equal records here, so every comparator-correct sort produces
this list. -/
def sortStage (data : List LogEvent) : List LogEvent := data.insertionSort eLe

/-- `kAttributionField` from `FieldValue.h`: the attribution chain lives at
depth-0 position 1. -/
def kAttributionField : Nat := 1

/-- Modelled from the spec: `isAttributionUidField`, the recognizer for
"this is the identity slot of a chain entry"; it only accepts integer-typed
values, which makes the subsequent `int_value` read meaningful. -/
def isAttributionUidField (fv : FieldValue) : Bool :=
  fv.mField.uidSlot && fv.mValue.isInt

/-- The rewrite applied to one field value inside the attribution-chain scan:
recognized identity slots get `uidMap->getHostUidOrSelf(int_value)` stored
back via `setInt`; every other field value is untouched. -/
def chainRewrite (uidMap : Int → Int) (fv : FieldValue) : FieldValue :=
  if isAttributionUidField fv then
    { fv with mValue := fv.mValue.setInt (uidMap fv.mValue.intValue) }
  else fv

/-- The attribution-chain branch of step 1: scan the field values in order,
`break` at the first one whose depth-0 position exceeds `kAttributionField`
(leaving it and everything after it untouched), rewrite the scanned span
via `chainRewrite`. -/
def normChainValues (uidMap : Int → Int) : List FieldValue → List FieldValue
  | [] => []
  | fv :: rest =>
    if fv.mField.pos > kAttributionField then fv :: rest
    else chainRewrite uidMap fv :: normChainValues uidMap rest

/-- The scalar-uid branch of step 1 for one event: `uidField` is the 1-based
field number; if it is positive, in range, and the value there has integer
type, that value is rewritten through the uid map, otherwise the event is
malformed (`none`). -/
def normScalarEvent (uidMap : Int → Int) (uidField : Int) (ev : LogEvent) : Option LogEvent :=
  let idx := (uidField - 1).toNat
  if uidField > 0 && decide ((ev.values.length : Int) ≥ uidField) then
    match ev.values[idx]? with
    | some fv =>
      if fv.mValue.isInt then
        some { ev with
                values := ev.values.set idx
                  { fv with mValue := fv.mValue.setInt (uidMap fv.mValue.intValue) } }
      else none
    | none => none
  else none

/-- Modelled from the spec: the external schema registries, at their
interface boundary: `kAllPullAtomInfo` (with its per-atom `additiveFields`
vector), `kAtomsWithAttributionChain` and `kAtomsWithUidField`. -/
structure PullAtomInfo where
  additiveFields : List Nat
  deriving DecidableEq, Repr

/-- Modelled from the spec: the three global schema tables, injected as one
read-only registry. -/
structure Registry where
  pullAtoms : Int → Option PullAtomInfo
  hasAttributionChain : Int → Bool
  uidField : Int → Option Int

/-- Normalization of one event, after the tag check: the chain branch is
taken whenever the tag is in `kAtomsWithAttributionChain`; otherwise the
scalar branch re-looks-up `kAtomsWithUidField` and leaves the event alone
when the tag is absent. -/
def normEvent (reg : Registry) (uidMap : Int → Int) (tagId : Int) (ev : LogEvent) :
    Option LogEvent :=
  if reg.hasAttributionChain tagId then
    some { ev with values := normChainValues uidMap ev.values }
  else
    match reg.uidField tagId with
    | some u => normScalarEvent uidMap u ev
    | none => some ev

/-- Result of the normalization loop (step 1).  The error constructors carry
the whole batch in the state the early `return` leaves it: records already
processed are rewritten, the offending record and everything after it are
untouched. -/
inductive NormResult where
  | ok (out : List LogEvent)
  | schemaMismatch (d : List LogEvent)
  | malformedRecord (d : List LogEvent)
  deriving DecidableEq, Repr

/-- Step 1 of the source: for each event, abort with `schemaMismatch` if its
tag differs from the batch tag, abort with `malformedRecord` if the scalar
uid check fails, otherwise rewrite it in place and continue. -/
def normalizeAll (reg : Registry) (uidMap : Int → Int) (tagId : Int) :
    List LogEvent → NormResult
  | [] => .ok []
  | ev :: rest =>
    if ev.tagId ≠ tagId then .schemaMismatch (ev :: rest)
    else
      match normEvent reg uidMap tagId ev with
      | none => .malformedRecord (ev :: rest)
      | some ev2 =>
        match normalizeAll reg uidMap tagId rest with
        | .ok out => .ok (ev2 :: out)
        | .schemaMismatch d => .schemaMismatch (ev2 :: d)
        | .malformedRecord d => .malformedRecord (ev2 :: d)

/-- The merge-eligibility loop of step 3: records at equal indices may only
differ where the left record's depth-0 position is an additive field. -/
def needMergeCheck (additive : List Nat) (lhs rhs : List FieldValue) : Bool :=
  (lhs.zip rhs).all fun p => p.1 == p.2 || decide (p.1.mField.pos ∈ additive)

/-- The fold loop of step 3: at every index whose left depth-0 position is
additive, the right value receives `rhs += lhs`; other indices keep the
right record's value. -/
def mergeValues (additive : List Nat) (lhs rhs : List FieldValue) : List FieldValue :=
  lhs.zipWith
    (fun l r =>
      if l.mField.pos ∈ additive then { r with mValue := r.mValue.addAssign l.mValue }
      else r)
    rhs

/-- Folding the left record into its right neighbour (the in-place update of
`data[i + 1]`). -/
def foldInto (additive : List Nat) (a b : LogEvent) : LogEvent :=
  { b with values := mergeValues additive a.values b.values }

/-- The merge loop of step 3, with `acc` playing the role of `data[i]` (the
current record, already holding every value folded into it).  When the pair
is ineligible — different sizes or a difference on a non-additive field —
`acc` is emitted unchanged and the scan continues from the right record;
when it is eligible, `acc` is folded into the right record.  The final
`[acc]` is `mergedData.push_back(data.back())`: the mutations propagate to
the last element, which is exactly `acc` when the loop ends. -/
def mergeGoAcc (additive : List Nat) (acc : LogEvent) : List LogEvent → List LogEvent
  | [] => [acc]
  | b :: rest =>
    if acc.values.length ≠ b.values.length then acc :: mergeGoAcc additive b rest
    else if needMergeCheck additive acc.values b.values then
      mergeGoAcc additive (foldInto additive acc b) rest
    else acc :: mergeGoAcc additive b rest

/-- The merge loop over a whole batch. -/
def mergeGo (additive : List Nat) : List LogEvent → List LogEvent
  | [] => []
  | a :: rest => mergeGoAcc additive a rest

/-- Step 3 of the source.  On an empty batch the loop body never runs and
`mergedData.push_back(data.back())` calls `back()` on an empty vector, which
is out of bounds; `none` marks that access. -/
def mergeStage (additive : List Nat) (data : List LogEvent) : Option (List LogEvent) :=
  match data with
  | [] => none
  | _ :: _ => some (mergeGo additive data)

/-- Overall outcome of `mapAndMergeIsolatedUidsToHostUid`.  The C++ function
returns `void` and communicates through early returns and the batch it
mutates; each constructor carries the batch as the function leaves it.
`backOnEmpty` marks the out-of-bounds `data.back()` on an empty batch. -/
inductive Outcome where
  | unknownAtom (out : List LogEvent)
  | notApplicable (out : List LogEvent)
  | schemaMismatch (out : List LogEvent)
  | malformedRecord (out : List LogEvent)
  | backOnEmpty
  | ok (out : List LogEvent)
  deriving DecidableEq, Repr

/-- The entry point `mapAndMergeIsolatedUidsToHostUid(data, uidMap, tagId)`:
unknown pull atoms and atoms with neither an attribution chain nor a uid
field return early with the batch untouched; otherwise the batch is
normalized (step 1), sorted (step 2) and merged (step 3). -/
def mapAndMergeIsolatedUidsToHostUid (reg : Registry) (uidMap : Int → Int) (tagId : Int)
    (data : List LogEvent) : Outcome :=
  match reg.pullAtoms tagId with
  | none => .unknownAtom data
  | some info =>
    if !reg.hasAttributionChain tagId && (reg.uidField tagId).isNone then
      .notApplicable data
    else
      match normalizeAll reg uidMap tagId data with
      | .schemaMismatch d => .schemaMismatch d
      | .malformedRecord d => .malformedRecord d
      | .ok normed =>
        match mergeStage info.additiveFields (sortStage normed) with
        | none => .backOnEmpty
        | some out => .ok out

/-! Specification-side definitions, used to state the claims.  These follow
the words of the spec, to be compared with the definitions above. -/

/-- The spec's record total order ("first by field-count, then
lexicographically by (FieldPath, Value) pairs in sequence order"), written
with the standard lexicographic order on lists. -/
def specRecordLt (a b : LogEvent) : Prop :=
  a.values.length < b.values.length ∨
    (a.values.length = b.values.length ∧ List.Lex (fun x y => fvLt x y = true) a.values b.values)

/-- The spec's merge eligibility: "same field count and, for every field
position at which their values differ, that position is in the
additive-field set". -/
def eligibleSpec (additive : List Nat) (a b : LogEvent) : Prop :=
  a.values.length = b.values.length ∧
    ∀ i, i < a.values.length →
      a.values.getD i default ≠ b.values.getD i default →
      (a.values.getD i default).mField.pos ∈ additive

instance (additive : List Nat) (a b : LogEvent) : Decidable (eligibleSpec additive a b) := by
  unfold eligibleSpec; infer_instance

/-- The non-additive projection of a field-value sequence: values at
additive positions are masked out. -/
def maskV (additive : List Nat) (vs : List FieldValue) : List (Option FieldValue) :=
  vs.map fun fv => if fv.mField.pos ∈ additive then none else some fv

/-- The non-additive projection of a record: field values at additive
positions are masked out.  Two records are "equal on every non-additive
field" exactly when their masks are equal. -/
def mask (additive : List Nat) (r : LogEvent) : List (Option FieldValue) :=
  maskV additive r.values

/-- A record conforms to a schema skeleton when its field paths are exactly
the skeleton and its values at additive positions have integer type. -/
def conformant (skeleton : List FieldPath) (additive : List Nat) (r : LogEvent) : Prop :=
  r.values.map (fun fv => fv.mField) = skeleton ∧
    ∀ i, i < r.values.length →
      (r.values.getD i default).mField.pos ∈ additive →
      ((r.values.getD i default).mValue).isInt = true

instance (skeleton : List FieldPath) (additive : List Nat) (r : LogEvent) :
    Decidable (conformant skeleton additive r) := by
  unfold conformant; infer_instance

/-- Additive positions occupy a suffix of the field sequence: anything at or
after an additive position is additive too. -/
def additiveSuffix (skeleton : List FieldPath) (additive : List Nat) : Prop :=
  ∀ j, j < skeleton.length → ∀ i, i ≤ j →
    (skeleton.getD i default).pos ∈ additive → (skeleton.getD j default).pos ∈ additive

instance (skeleton : List FieldPath) (additive : List Nat) :
    Decidable (additiveSuffix skeleton additive) := by
  unfold additiveSuffix; infer_instance

/-- The integer stored at index `i` of a record (0 outside the record). -/
def intAt (r : LogEvent) (i : Nat) : Int := ((r.values.getD i default).mValue).intValue

/-- Sum of the integers at index `i` across a batch. -/
def sumAt (l : List LogEvent) (i : Nat) : Int := (l.map fun r => intAt r i).sum

/-- Sum of the integer values carried by field position `p` inside one
record. -/
def sumPosOne (p : Nat) (r : LogEvent) : Int :=
  ((r.values.filter fun fv => fv.mField.pos == p).map fun fv => fv.mValue.intValue).sum

/-- Sum of the integer values carried by field position `p` across a
batch. -/
def sumPos (p : Nat) (l : List LogEvent) : Int := (l.map fun r => sumPosOne p r).sum

/-- Folding a whole run of records left to right, exactly as the merge loop
does on a run of pairwise-eligible records. -/
def classFold (additive : List Nat) (acc : LogEvent) : List LogEvent → LogEvent
  | [] => acc
  | b :: rest => classFold additive (foldInto additive acc b) rest

/-! Concrete sample schemas and batches, used by witnesses and
counterexamples. -/

/-- A plain depth-0 field path at position `p`. -/
def fp (p : Nat) : FieldPath := ⟨p, 0, false⟩

/-- A registry holding the sample atoms: tag 10 is a scalar-uid atom with
uid at field 1 and additive fields {3, 4}; tag 20 is an attribution-chain
atom with additive field {2}; tag 30 is known but has neither; tag 42 is a
scalar-uid atom whose additive field {2} precedes the non-additive field 3;
tag 43 is a scalar-uid atom with additive field {1}. -/
def sampleReg : Registry where
  pullAtoms := fun t =>
    if t = 10 then some ⟨[3, 4]⟩
    else if t = 20 then some ⟨[2]⟩
    else if t = 30 then some ⟨[]⟩
    else if t = 42 then some ⟨[2]⟩
    else if t = 43 then some ⟨[1]⟩
    else none
  hasAttributionChain := fun t => t == 20
  uidField := fun t =>
    if t = 10 then some 1 else if t = 42 then some 1 else if t = 43 then some 1 else none

/-- The spec's concrete scenario, record (uid, state, bytesA, bytesB). -/
def mkRec4 (tag uid state a b : Int) : LogEvent :=
  ⟨tag, [⟨fp 1, .intV uid⟩, ⟨fp 2, .intV state⟩, ⟨fp 3, .intV a⟩, ⟨fp 4, .intV b⟩]⟩

/-- Records for the C1 counterexample, tag 42: (uid, additive measurement,
non-additive dimension). -/
def mkRec3 (uid a d : Int) : LogEvent :=
  ⟨42, [⟨fp 1, .intV uid⟩, ⟨fp 2, .intV a⟩, ⟨fp 3, .intV d⟩]⟩

def cexA : LogEvent := mkRec3 5 10 7
def cexB : LogEvent := mkRec3 5 20 7
def cexC : LogEvent := mkRec3 5 10 8

/-- Records for the C4 counterexample, tag 43: single-field records whose
field paths differ. -/
def hetA : LogEvent := ⟨43, [⟨fp 1, .intV 1⟩]⟩
def hetB : LogEvent := ⟨43, [⟨fp 2, .intV 5⟩]⟩

/-- A normalized batch of the spec's shape for tag 10: two records agreeing
on the non-additive fields (uid 50, state 1) and one with a different
state. -/
def specBatch : List LogEvent :=
  [mkRec4 10 50 1 100 200, mkRec4 10 50 1 5 6, mkRec4 10 50 2 100 200]

/-! ### Helper lemmas -/

theorem normEvent_chain (reg : Registry) (uidMap : Int → Int) (tagId : Int) (ev : LogEvent)
    (h : reg.hasAttributionChain tagId = true) :
    normEvent reg uidMap tagId ev = some { ev with values := normChainValues uidMap ev.values } := by
  simp [normEvent, h]

theorem normalizeAll_append (reg : Registry) (uidMap : Int → Int) (tagId : Int)
    (pre : List LogEvent) (pre2 rest : List LogEvent)
    (htag : ∀ r ∈ pre, r.tagId = tagId)
    (hm : pre.mapM (normEvent reg uidMap tagId) = some pre2) :
    normalizeAll reg uidMap tagId (pre ++ rest) =
      match normalizeAll reg uidMap tagId rest with
      | .ok o => .ok (pre2 ++ o)
      | .schemaMismatch d => .schemaMismatch (pre2 ++ d)
      | .malformedRecord d => .malformedRecord (pre2 ++ d) := by
  induction pre generalizing pre2 with
  | nil =>
    simp only [List.mapM_nil, pure, Option.some.injEq] at hm
    subst hm
    simp only [List.nil_append]
    cases normalizeAll reg uidMap tagId rest <;> simp
  | cons ev pre ih =>
    rw [List.mapM_cons] at hm
    rcases hev : normEvent reg uidMap tagId ev with _ | ev2 <;> rw [hev] at hm
    · simp at hm
    rcases hrest : pre.mapM (normEvent reg uidMap tagId) with _ | pre2' <;> rw [hrest] at hm
    · simp at hm
    simp only [Option.bind_eq_bind, Option.some_bind, Option.pure_def,
      Option.some.injEq] at hm
    subst hm
    have htag0 : ev.tagId = tagId := htag ev (by simp)
    have ih2 := ih pre2' (fun r hr => htag r (by simp [hr])) hrest
    simp only [List.cons_append, normalizeAll, htag0, ne_eq, not_true_eq_false, if_false,
      hev]
    simp only [List.append_eq]
    rw [ih2]
    cases normalizeAll reg uidMap tagId rest <;> simp

theorem normalizeAll_chain_total (reg : Registry) (uidMap : Int → Int) (tagId : Int)
    (hchain : reg.hasAttributionChain tagId = true) :
    ∀ (l : List LogEvent) (d : List LogEvent),
      normalizeAll reg uidMap tagId l ≠ NormResult.malformedRecord d := by
  intro l
  induction l with
  | nil => intro d h; simp [normalizeAll] at h
  | cons ev rest ih =>
    intro d h
    rw [normalizeAll] at h
    by_cases htag : ev.tagId ≠ tagId
    · simp [htag] at h
    · rw [if_neg htag, normEvent_chain reg uidMap tagId ev hchain] at h
      rcases hr : normalizeAll reg uidMap tagId rest with o | d2 | d2 <;> rw [hr] at h <;>
        simp at h
      exact ih d2 hr

/-! ### C2 -/

/-- C2: refuted on the code — on an empty batch with an applicable tagId the
function does not return an empty batch; the merge stage's final
`mergedData.push_back(data.back())` executes `back()` on an empty vector.
Evaluated here at the failing input for a scalar-uid atom (tag 10) and an
attribution-chain atom (tag 20) of the sample registry. -/
theorem c2_empty_batch_hits_back_on_empty :
    mapAndMergeIsolatedUidsToHostUid sampleReg (fun u => u) 10 [] = Outcome.backOnEmpty ∧
    mapAndMergeIsolatedUidsToHostUid sampleReg (fun u => u) 20 [] = Outcome.backOnEmpty := by
  constructor <;> rfl

/-! ### C9 -/

/-- C9: for a tagId with neither a uid field nor an attribution chain —
including a tagId unknown to `kAllPullAtomInfo` — the call returns early and
the batch is left exactly as it was: no record is mutated, reordered, added
or removed. -/
theorem c9_no_schema_batch_untouched (reg : Registry) (uidMap : Int → Int) (tagId : Int)
    (data : List LogEvent)
    (hchain : reg.hasAttributionChain tagId = false)
    (huid : reg.uidField tagId = none) :
    mapAndMergeIsolatedUidsToHostUid reg uidMap tagId data =
      match reg.pullAtoms tagId with
      | none => Outcome.unknownAtom data
      | some _ => Outcome.notApplicable data := by
  cases h : reg.pullAtoms tagId <;>
    simp [mapAndMergeIsolatedUidsToHostUid, h, hchain, huid]

/-- Witness for C9 at tag 30 of the sample registry (known atom, no uid
field, no attribution chain) on a nonempty batch. -/
theorem c9_witness :
    mapAndMergeIsolatedUidsToHostUid sampleReg (fun u => u) 30 [mkRec4 30 1 2 3 4] =
      Outcome.notApplicable [mkRec4 30 1 2 3 4] :=
  c9_no_schema_batch_untouched sampleReg (fun u => u) 30 [mkRec4 30 1 2 3 4] (by decide)
    (by decide)

/-! ### C10 -/

/-- C10: for a tagId with an attribution chain, the operation can never
abort with the malformed-record condition: the chain branch of the
normalizer performs no range or type check, so only a schema mismatch (or
success) is possible. -/
theorem c10_chain_never_malformed (reg : Registry) (uidMap : Int → Int) (tagId : Int)
    (data d : List LogEvent)
    (hchain : reg.hasAttributionChain tagId = true) :
    mapAndMergeIsolatedUidsToHostUid reg uidMap tagId data ≠ Outcome.malformedRecord d := by
  intro h
  rw [mapAndMergeIsolatedUidsToHostUid] at h
  rcases ha : reg.pullAtoms tagId with _ | info <;> rw [ha] at h
  · simp at h
  rw [hchain] at h
  simp only [Bool.not_true, Bool.false_and, Bool.false_eq_true, if_false] at h
  rcases hn : normalizeAll reg uidMap tagId data with o | d2 | d2 <;> rw [hn] at h
  · rcases hm : mergeStage info.additiveFields (sortStage o) with _ | out <;>
      simp [hm] at h
  · simp at h
  · exact normalizeAll_chain_total reg uidMap tagId hchain data d2 hn

/-- Witness for C10: the chain atom 20 on a record whose chain identity slot
is missing entirely still does not produce a malformed-record outcome. -/
theorem c10_witness :
    mapAndMergeIsolatedUidsToHostUid sampleReg (fun u => u) 20 [⟨20, []⟩] ≠
      Outcome.malformedRecord [⟨20, []⟩] :=
  c10_chain_never_malformed sampleReg (fun u => u) 20 [⟨20, []⟩] [⟨20, []⟩] (by decide)

/-! ### C7 -/

/-- C7: the attribution-chain normalizer scans fields in sequence order and
stops at the first field whose depth-0 position exceeds the chain position:
it maps `chainRewrite` over the longest prefix of fields with positions
inside the chain span and leaves the rest of the sequence untouched, and
`chainRewrite` itself rewrites exactly the fields recognized as chain
identity slots, leaving every other field unchanged. -/
theorem c7_chain_scan_span (uidMap : Int → Int) (vals : List FieldValue) :
    normChainValues uidMap vals =
      (vals.takeWhile fun fv => decide (fv.mField.pos ≤ kAttributionField)).map
          (chainRewrite uidMap) ++
        vals.dropWhile (fun fv => decide (fv.mField.pos ≤ kAttributionField)) ∧
    ∀ fv : FieldValue, isAttributionUidField fv = false → chainRewrite uidMap fv = fv := by
  constructor
  · induction vals with
    | nil => rfl
    | cons fv rest ih =>
      by_cases h : fv.mField.pos > kAttributionField
      · have hp : ¬ fv.mField.pos ≤ kAttributionField := by omega
        simp [normChainValues, h, List.takeWhile_cons, List.dropWhile_cons, hp]
      · have hp : fv.mField.pos ≤ kAttributionField := by omega
        simp [normChainValues, h, List.takeWhile_cons, List.dropWhile_cons, hp, ih]
  · intro fv h
    simp [chainRewrite, h]

/-- Witness for C7: a two-field record with a chain identity slot at
position 1 and a plain field at position 2; the slot is rewritten, the
plain field is untouched, and `chainRewrite` fixes an unrecognized field. -/
theorem c7_witness :
    normChainValues (fun u => u + 1) [⟨⟨1, 0, true⟩, Value.intV 3⟩, ⟨fp 2, Value.intV 9⟩] =
        [⟨⟨1, 0, true⟩, Value.intV 4⟩, ⟨fp 2, Value.intV 9⟩] ∧
    chainRewrite (fun u => u + 1) ⟨fp 2, Value.intV 9⟩ = ⟨fp 2, Value.intV 9⟩ := by
  refine ⟨by decide, ?_⟩
  exact (c7_chain_scan_span (fun u => u + 1) []).2 ⟨fp 2, Value.intV 9⟩ (by decide)

/-! ### C5 -/

/-- C5: for a scalar-identity schema with the uid at 1-based position `u`, a
record whose field count is below `u` or whose value there is not of
integer type makes the operation fail with the malformed-record condition:
the records after it are not normalized and the batch is neither sorted nor
merged (the outcome carries the batch exactly as the early return leaves
it). -/
theorem c5_scalar_malformed_aborts (reg : Registry) (uidMap : Int → Int) (tagId u : Int)
    (info : PullAtomInfo) (pre pre2 post : List LogEvent) (bad : LogEvent)
    (hatom : reg.pullAtoms tagId = some info)
    (hchain : reg.hasAttributionChain tagId = false)
    (huid : reg.uidField tagId = some u)
    (hu : 0 < u)
    (htag : ∀ r ∈ pre, r.tagId = tagId)
    (hpre : pre.mapM (normEvent reg uidMap tagId) = some pre2)
    (hbadTag : bad.tagId = tagId)
    (hbad : (bad.values.length : Int) < u ∨
      ((bad.values.getD (u - 1).toNat default).mValue).isInt = false) :
    mapAndMergeIsolatedUidsToHostUid reg uidMap tagId (pre ++ bad :: post) =
      Outcome.malformedRecord (pre2 ++ bad :: post) := by
  have hscal : normScalarEvent uidMap u bad = none := by
    rcases hbad with hlen | hint
    · have : decide ((bad.values.length : Int) ≥ u) = false := by
        simp only [decide_eq_false_iff_not]; omega
      simp [normScalarEvent, this]
    · by_cases hr : (bad.values.length : Int) ≥ u
      · have hidx : (u - 1).toNat < bad.values.length := by omega
        have hg : (decide (u > 0) && decide ((bad.values.length : Int) ≥ u)) = true := by
          simp only [Bool.and_eq_true, decide_eq_true_eq]
          exact ⟨hu, hr⟩
        rw [List.getD_eq_getElem bad.values default hidx] at hint
        simp only [normScalarEvent, hg, if_true, List.getElem?_eq_getElem hidx, hint,
          Bool.false_eq_true, if_false]
      · have : decide ((bad.values.length : Int) ≥ u) = false := by
          simp only [decide_eq_false_iff_not]; omega
        simp [normScalarEvent, this]
  have hne : normEvent reg uidMap tagId bad = none := by
    simp [normEvent, hchain, huid, hscal]
  have hnorm : normalizeAll reg uidMap tagId (bad :: post) =
      NormResult.malformedRecord (bad :: post) := by
    rw [normalizeAll]
    simp [hbadTag, hne]
  rw [mapAndMergeIsolatedUidsToHostUid, hatom,
    normalizeAll_append reg uidMap tagId pre pre2 (bad :: post) htag hpre, hnorm]
  simp [huid]

/-- Witness for C5: tag 10 (uid at field 1), one good record before, a
record with a string where its uid should be, one record after; only the
good record is rewritten. -/
theorem c5_witness :
    mapAndMergeIsolatedUidsToHostUid sampleReg (fun u => u) 10
        [mkRec4 10 7 1 2 3, ⟨10, [⟨fp 1, Value.strV []⟩]⟩, mkRec4 10 8 1 2 3] =
      Outcome.malformedRecord
        [mkRec4 10 7 1 2 3, ⟨10, [⟨fp 1, Value.strV []⟩]⟩, mkRec4 10 8 1 2 3] :=
  c5_scalar_malformed_aborts sampleReg (fun u => u) 10 1 ⟨[3, 4]⟩
    [mkRec4 10 7 1 2 3] [mkRec4 10 7 1 2 3] [mkRec4 10 8 1 2 3]
    ⟨10, [⟨fp 1, Value.strV []⟩]⟩ (by decide) (by decide) (by decide) (by decide)
    (by decide) (by decide) (by decide) (by decide)

/-! ### C6 -/

/-- C6: a record whose tagId differs from the batch's declared tagId aborts
the whole operation with the schema-mismatch condition: records before it
keep their rewritten identities, the offending record and everything after
it stay untouched, and the batch is neither sorted nor merged. -/
theorem c6_mismatched_tag_aborts (reg : Registry) (uidMap : Int → Int) (tagId : Int)
    (info : PullAtomInfo) (pre pre2 post : List LogEvent) (bad : LogEvent)
    (hatom : reg.pullAtoms tagId = some info)
    (happl : reg.hasAttributionChain tagId = true ∨ (reg.uidField tagId).isSome = true)
    (htag : ∀ r ∈ pre, r.tagId = tagId)
    (hpre : pre.mapM (normEvent reg uidMap tagId) = some pre2)
    (hbad : bad.tagId ≠ tagId) :
    mapAndMergeIsolatedUidsToHostUid reg uidMap tagId (pre ++ bad :: post) =
      Outcome.schemaMismatch (pre2 ++ bad :: post) := by
  have hnorm : normalizeAll reg uidMap tagId (bad :: post) =
      NormResult.schemaMismatch (bad :: post) := by
    rw [normalizeAll, if_pos hbad]
  have happf : (!reg.hasAttributionChain tagId && (reg.uidField tagId).isNone) = false := by
    rcases happl with h | h
    · simp [h]
    · rcases hu : reg.uidField tagId with _ | u
      · rw [hu] at h; simp at h
      · simp [hu]
  rw [mapAndMergeIsolatedUidsToHostUid, hatom, happf,
    normalizeAll_append reg uidMap tagId pre pre2 (bad :: post) htag hpre, hnorm]
  simp

/-- Witness for C6: tag 10, a good record followed by a record carrying
tag 11. -/
theorem c6_witness :
    mapAndMergeIsolatedUidsToHostUid sampleReg (fun u => u) 10
        [mkRec4 10 7 1 2 3, mkRec4 11 1 1 1 1] =
      Outcome.schemaMismatch [mkRec4 10 7 1 2 3, mkRec4 11 1 1 1 1] :=
  c6_mismatched_tag_aborts sampleReg (fun u => u) 10 ⟨[3, 4]⟩
    [mkRec4 10 7 1 2 3] [mkRec4 10 7 1 2 3] [] (mkRec4 11 1 1 1 1)
    (by decide) (by decide) (by decide) (by decide) (by decide)

/-! ### C3 -/

theorem needMergeCheck_iff (additive : List Nat) (xs ys : List FieldValue)
    (hlen : xs.length = ys.length) :
    needMergeCheck additive xs ys = true ↔
      ∀ i, i < xs.length → xs.getD i default ≠ ys.getD i default →
        (xs.getD i default).mField.pos ∈ additive := by
  induction xs generalizing ys with
  | nil => simp [needMergeCheck]
  | cons x xs ih =>
    cases ys with
    | nil => simp at hlen
    | cons y ys =>
      have hlen2 : xs.length = ys.length := by simpa using hlen
      have hzip : needMergeCheck additive (x :: xs) (y :: ys) =
          ((x == y || decide (x.mField.pos ∈ additive)) &&
            needMergeCheck additive xs ys) := rfl
      rw [hzip, Bool.and_eq_true, ih ys hlen2]
      simp only [Bool.or_eq_true, beq_iff_eq, decide_eq_true_eq]
      constructor
      · rintro ⟨h0, hr⟩ i hi hne
        cases i with
        | zero =>
          simp only [List.getD_cons_zero] at hne ⊢
          rcases h0 with h0 | h0
          · exact absurd h0 hne
          · exact h0
        | succ n =>
          simp only [List.getD_cons_succ] at hne ⊢
          exact hr n (by simpa using hi) hne
      · intro h
        constructor
        · by_cases hxy : x = y
          · exact Or.inl hxy
          · exact Or.inr (by simpa using h 0 (by simp) (by simpa using hxy))
        · intro i hi hne
          simpa using h (i + 1) (by simpa using hi) (by simpa using hne)

/-- C3: in the merge pass, the current record and its right neighbour are
merged (the left folded into the right) exactly when they have the same
field count and differ only at additive positions; otherwise the left
record is appended to the output unchanged and the scan continues from the
right record.  The second conjunct identifies the code's check with the
spec's eligibility predicate. -/
theorem c3_merge_step_iff (additive : List Nat) (a b : LogEvent) (rest : List LogEvent) :
    mergeGoAcc additive a (b :: rest) =
      (if eligibleSpec additive a b then mergeGoAcc additive (foldInto additive a b) rest
       else a :: mergeGoAcc additive b rest) ∧
    ((a.values.length = b.values.length ∧ needMergeCheck additive a.values b.values = true) ↔
      eligibleSpec additive a b) := by
  have hiff : (a.values.length = b.values.length ∧
      needMergeCheck additive a.values b.values = true) ↔ eligibleSpec additive a b := by
    constructor
    · rintro ⟨hlen, hc⟩
      exact ⟨hlen, (needMergeCheck_iff additive _ _ hlen).1 hc⟩
    · rintro ⟨hlen, h⟩
      exact ⟨hlen, (needMergeCheck_iff additive _ _ hlen).2 h⟩
  refine ⟨?_, hiff⟩
  rw [mergeGoAcc]
  by_cases hlen : a.values.length = b.values.length
  · rw [if_neg (by simpa using hlen)]
    by_cases hc : needMergeCheck additive a.values b.values = true
    · rw [if_pos hc, if_pos (hiff.1 ⟨hlen, hc⟩)]
    · rw [if_neg (by simpa using hc), if_neg (fun he => hc (hiff.2 he).2)]
  · rw [if_pos (by simpa using hlen), if_neg (fun he => hlen he.1)]

/-! ### Order lemmas for the comparator -/

theorem chLt_irrefl (a : Char) : chLt a a = false := by
  simp [chLt]

theorem chLt_trans {a b c : Char} (hab : chLt a b = true) (hbc : chLt b c = true) :
    chLt a c = true := by
  simp only [chLt, decide_eq_true_eq] at *
  exact lt_trans hab hbc

theorem chLt_connex {a b : Char} (h : a ≠ b) : chLt a b = true ∨ chLt b a = true := by
  simp only [chLt, decide_eq_true_eq]
  exact lt_or_gt_of_ne h

theorem strLtB_irrefl (s : List Char) : strLtB s s = false := by
  induction s with
  | nil => rfl
  | cons a s ih => simp [strLtB, ih]

theorem strLtB_trans : ∀ {a b c : List Char},
    strLtB a b = true → strLtB b c = true → strLtB a c = true
  | [], [], _, hab, _ => by simp [strLtB] at hab
  | [], _ :: _, [], _, hbc => by simp [strLtB] at hbc
  | [], _ :: _, _ :: _, _, _ => rfl
  | _ :: _, [], _, hab, _ => by simp [strLtB] at hab
  | _ :: _, _ :: _, [], _, hbc => by simp [strLtB] at hbc
  | x :: xs, y :: ys, z :: zs, hab, hbc => by
    by_cases hxy : x = y
    · subst hxy
      rw [strLtB, if_neg (by simp)] at hab
      by_cases hxz : x = z
      · subst hxz
        rw [strLtB, if_neg (by simp)] at hbc
        rw [strLtB, if_neg (by simp)]
        exact strLtB_trans hab hbc
      · rw [strLtB, if_pos hxz] at hbc
        rw [strLtB, if_pos hxz]
        exact hbc
    · rw [strLtB, if_pos hxy] at hab
      by_cases hyz : y = z
      · subst hyz
        rw [strLtB, if_pos hxy]
        exact hab
      · rw [strLtB, if_pos hyz] at hbc
        have hlt : x < z := lt_trans (by simpa [chLt] using hab) (by simpa [chLt] using hbc)
        rw [strLtB, if_pos (ne_of_lt hlt)]
        simp [chLt, hlt]

theorem strLtB_connex : ∀ {a b : List Char}, a ≠ b →
    strLtB a b = true ∨ strLtB b a = true
  | [], [], h => absurd rfl h
  | [], _ :: _, _ => Or.inl rfl
  | _ :: _, [], _ => Or.inr rfl
  | x :: xs, y :: ys, h => by
    by_cases hxy : x = y
    · subst hxy
      have hts : xs ≠ ys := by intro hh; exact h (by rw [hh])
      rw [strLtB, if_neg (by simp), strLtB, if_neg (by simp)]
      exact strLtB_connex hts
    · rw [strLtB, if_pos hxy, strLtB, if_pos (Ne.symm hxy)]
      exact chLt_connex hxy

theorem valueLt_irrefl (v : Value) : valueLt v v = false := by
  cases v with
  | intV a => simp [valueLt]
  | strV s => simp [valueLt, strLtB_irrefl]

theorem valueLt_trans : ∀ {a b c : Value},
    valueLt a b = true → valueLt b c = true → valueLt a c = true
  | .intV x, .intV y, .intV z, hab, hbc => by
    simp only [valueLt, decide_eq_true_eq] at *
    omega
  | .intV _, _, .strV _, _, _ => rfl
  | .intV _, .strV _, .intV _, _, hbc => by simp [valueLt] at hbc
  | .strV _, .intV _, _, hab, _ => by simp [valueLt] at hab
  | .strV _, .strV _, .intV _, _, hbc => by simp [valueLt] at hbc
  | .strV x, .strV y, .strV z, hab, hbc => by
    simp only [valueLt] at *
    exact strLtB_trans hab hbc

theorem valueLt_connex : ∀ {a b : Value}, a ≠ b →
    valueLt a b = true ∨ valueLt b a = true
  | .intV x, .intV y, h => by
    have : x ≠ y := by intro hh; exact h (by rw [hh])
    simp only [valueLt, decide_eq_true_eq]
    omega
  | .intV _, .strV _, _ => Or.inl rfl
  | .strV _, .intV _, _ => Or.inr rfl
  | .strV x, .strV y, h => by
    have : x ≠ y := by intro hh; exact h (by rw [hh])
    simp only [valueLt]
    exact strLtB_connex this

theorem pathLt_iff (a b : FieldPath) : pathLt a b = true ↔
    (a.pos < b.pos ∨ (a.pos = b.pos ∧
      (a.sub < b.sub ∨ (a.sub = b.sub ∧ a.uidSlot = false ∧ b.uidSlot = true)))) := by
  simp [pathLt, Bool.and_eq_true, Bool.or_eq_true, decide_eq_true_eq, beq_iff_eq,
    Bool.not_eq_true']

theorem pathLt_irrefl (a : FieldPath) : pathLt a a = false := by
  rw [Bool.eq_false_iff, ne_eq, pathLt_iff]
  rintro (h | ⟨-, h | ⟨-, h1, h2⟩⟩)
  · omega
  · omega
  · rw [h1] at h2; cases h2

theorem pathLt_trans {a b c : FieldPath} (hab : pathLt a b = true)
    (hbc : pathLt b c = true) : pathLt a c = true := by
  rw [pathLt_iff] at *
  rcases hab with h1 | ⟨e1, h1 | ⟨f1, u1, v1⟩⟩ <;>
    rcases hbc with h2 | ⟨e2, h2 | ⟨f2, u2, v2⟩⟩
  · exact Or.inl (by omega)
  · exact Or.inl (by omega)
  · exact Or.inl (by omega)
  · exact Or.inl (by omega)
  · exact Or.inr ⟨by omega, Or.inl (by omega)⟩
  · exact Or.inr ⟨by omega, Or.inl (by omega)⟩
  · exact Or.inl (by omega)
  · exact Or.inr ⟨by omega, Or.inl (by omega)⟩
  · rw [u2] at v1; cases v1

theorem pathLt_connex {a b : FieldPath} (h : a ≠ b) :
    pathLt a b = true ∨ pathLt b a = true := by
  rcases a with ⟨p1, s1, u1⟩
  rcases b with ⟨p2, s2, u2⟩
  simp only [pathLt_iff]
  by_cases hp : p1 = p2
  · subst hp
    by_cases hs : s1 = s2
    · subst hs
      have hu : u1 ≠ u2 := by
        intro hh
        exact h (by rw [hh])
      cases u1 <;> cases u2 <;> simp_all
    · rcases lt_or_gt_of_ne hs with hlt | hlt
      · exact Or.inl (Or.inr ⟨rfl, Or.inl hlt⟩)
      · exact Or.inr (Or.inr ⟨rfl, Or.inl hlt⟩)
  · rcases lt_or_gt_of_ne hp with hlt | hlt
    · exact Or.inl (Or.inl hlt)
    · exact Or.inr (Or.inl hlt)

theorem fvLt_iff (a b : FieldValue) : fvLt a b = true ↔
    (pathLt a.mField b.mField = true ∨
      (a.mField = b.mField ∧ valueLt a.mValue b.mValue = true)) := by
  simp [fvLt, Bool.or_eq_true, Bool.and_eq_true, beq_iff_eq]

theorem fvLt_irrefl (a : FieldValue) : fvLt a a = false := by
  rw [Bool.eq_false_iff, ne_eq, fvLt_iff]
  rintro (h | ⟨-, h⟩)
  · rw [pathLt_irrefl] at h; cases h
  · rw [valueLt_irrefl] at h; cases h

theorem fvLt_trans {a b c : FieldValue} (hab : fvLt a b = true)
    (hbc : fvLt b c = true) : fvLt a c = true := by
  rw [fvLt_iff] at *
  rcases hab with h1 | ⟨e1, h1⟩ <;> rcases hbc with h2 | ⟨e2, h2⟩
  · exact Or.inl (pathLt_trans h1 h2)
  · exact Or.inl (e2 ▸ h1)
  · exact Or.inl (e1 ▸ h2)
  · exact Or.inr ⟨e1.trans e2, valueLt_trans h1 h2⟩

theorem fvLt_connex {a b : FieldValue} (h : a ≠ b) :
    fvLt a b = true ∨ fvLt b a = true := by
  by_cases hf : a.mField = b.mField
  · have hv : a.mValue ≠ b.mValue := by
      intro hh
      rcases a with ⟨af, av⟩
      rcases b with ⟨bf, bv⟩
      exact h (by simp_all)
    rcases valueLt_connex hv with hlt | hlt
    · exact Or.inl ((fvLt_iff a b).2 (Or.inr ⟨hf, hlt⟩))
    · exact Or.inr ((fvLt_iff b a).2 (Or.inr ⟨hf.symm, hlt⟩))
  · rcases pathLt_connex hf with hlt | hlt
    · exact Or.inl ((fvLt_iff a b).2 (Or.inl hlt))
    · exact Or.inr ((fvLt_iff b a).2 (Or.inl hlt))

theorem fvLt_asymm {a b : FieldValue} (hab : fvLt a b = true) : fvLt b a = false := by
  rw [Bool.eq_false_iff, ne_eq]
  intro hba
  have := fvLt_trans hab hba
  rw [fvLt_irrefl] at this
  cases this

theorem lexFvLt_irrefl (xs : List FieldValue) : lexFvLt xs xs = false := by
  induction xs with
  | nil => rfl
  | cons x xs ih => simp [lexFvLt, ih]

theorem lexFvLt_trans : ∀ {xs ys zs : List FieldValue},
    lexFvLt xs ys = true → lexFvLt ys zs = true → lexFvLt xs zs = true
  | [], _, _, hab, _ => by simp [lexFvLt] at hab
  | _ :: _, [], _, hab, _ => by simp [lexFvLt] at hab
  | _ :: _, _ :: _, [], _, hbc => by simp [lexFvLt] at hbc
  | x :: xs, y :: ys, z :: zs, hab, hbc => by
    by_cases hxy : x = y
    · subst hxy
      rw [lexFvLt, if_neg (by simp)] at hab
      by_cases hxz : x = z
      · subst hxz
        rw [lexFvLt, if_neg (by simp)] at hbc
        rw [lexFvLt, if_neg (by simp)]
        exact lexFvLt_trans hab hbc
      · rw [lexFvLt, if_pos hxz] at hbc
        rw [lexFvLt, if_pos hxz]
        exact hbc
    · rw [lexFvLt, if_pos hxy] at hab
      by_cases hyz : y = z
      · subst hyz
        rw [lexFvLt, if_pos hxy]
        exact hab
      · rw [lexFvLt, if_pos hyz] at hbc
        have hlt : fvLt x z = true := fvLt_trans hab hbc
        have hne : x ≠ z := by
          intro hh
          subst hh
          rw [fvLt_irrefl] at hlt
          cases hlt
        rw [lexFvLt, if_pos hne]
        exact hlt

theorem lexFvLt_asymm {xs ys : List FieldValue} (h : lexFvLt xs ys = true) :
    lexFvLt ys xs = false := by
  rw [Bool.eq_false_iff, ne_eq]
  intro hba
  have := lexFvLt_trans h hba
  rw [lexFvLt_irrefl] at this
  cases this

theorem lexFvLt_connex : ∀ {xs ys : List FieldValue}, xs.length = ys.length → xs ≠ ys →
    lexFvLt xs ys = true ∨ lexFvLt ys xs = true
  | [], [], _, h => absurd rfl h
  | [], _ :: _, hlen, _ => by simp at hlen
  | _ :: _, [], hlen, _ => by simp at hlen
  | x :: xs, y :: ys, hlen, h => by
    by_cases hxy : x = y
    · subst hxy
      have hts : xs ≠ ys := by intro hh; exact h (by rw [hh])
      rw [lexFvLt, if_neg (by simp), lexFvLt, if_neg (by simp)]
      exact lexFvLt_connex (by simpa using hlen) hts
    · rw [lexFvLt, if_pos hxy, lexFvLt, if_pos (Ne.symm hxy)]
      exact fvLt_connex hxy

theorem eventLt_only_values (a b x : LogEvent) (h : a.values = b.values) :
    eventLt a x = eventLt b x ∧ eventLt x a = eventLt x b := by
  constructor <;> simp [eventLt, h]

theorem eventLt_irrefl (a : LogEvent) : eventLt a a = false := by
  simp [eventLt, lexFvLt_irrefl]

theorem eventLt_values_eq {a b : LogEvent} (h : a.values = b.values) :
    eventLt a b = false := by
  simp [eventLt, h, lexFvLt_irrefl]

theorem eventLt_trans {a b c : LogEvent} (hab : eventLt a b = true)
    (hbc : eventLt b c = true) : eventLt a c = true := by
  rw [eventLt] at *
  by_cases h1 : a.values.length = b.values.length <;>
    by_cases h2 : b.values.length = c.values.length
  · rw [if_neg (by simpa using h1)] at hab
    rw [if_neg (by simpa using h2)] at hbc
    rw [if_neg (by simp; omega)]
    exact lexFvLt_trans hab hbc
  · rw [if_pos (by simpa using h2), decide_eq_true_eq] at hbc
    rw [if_pos (by simp; omega), decide_eq_true_eq]
    omega
  · rw [if_pos (by simpa using h1), decide_eq_true_eq] at hab
    rw [if_pos (by simp; omega), decide_eq_true_eq]
    omega
  · rw [if_pos (by simpa using h1), decide_eq_true_eq] at hab
    rw [if_pos (by simpa using h2), decide_eq_true_eq] at hbc
    rw [if_pos (by simp; omega), decide_eq_true_eq]
    omega

theorem eventLt_asymm {a b : LogEvent} (hab : eventLt a b = true) :
    eventLt b a = false := by
  rw [Bool.eq_false_iff, ne_eq]
  intro hba
  have := eventLt_trans hab hba
  rw [eventLt_irrefl] at this
  cases this

theorem eventLt_connex {a b : LogEvent} (h : a.values ≠ b.values) :
    eventLt a b = true ∨ eventLt b a = true := by
  rw [eventLt, eventLt]
  by_cases hlen : a.values.length = b.values.length
  · rw [if_neg (by simpa using hlen), if_neg (by simp; omega)]
    exact lexFvLt_connex hlen h
  · rw [if_pos (by simpa using hlen), if_pos (by simp; omega), decide_eq_true_eq,
      decide_eq_true_eq]
    omega

theorem eventLt_incomp_iff {a b : LogEvent} :
    (eventLt a b = false ∧ eventLt b a = false) ↔ a.values = b.values := by
  constructor
  · rintro ⟨h1, h2⟩
    by_contra h
    rcases eventLt_connex h with hlt | hlt
    · rw [hlt] at h1; cases h1
    · rw [hlt] at h2; cases h2
  · intro h
    exact ⟨eventLt_values_eq h, eventLt_values_eq h.symm⟩

instance : IsTotal LogEvent eLe where
  total a b := by
    rw [eLe, eLe]
    by_cases h : eventLt b a = true
    · exact Or.inr (eventLt_asymm h)
    · exact Or.inl (by simpa using h)

instance : IsTrans LogEvent eLe where
  trans a b c hab hbc := by
    rw [eLe] at *
    by_contra hca
    have hca2 : eventLt c a = true := by simpa using hca
    by_cases hcb : c.values = b.values
    · rw [((eventLt_only_values c b a) hcb).1, hab] at hca2
      cases hca2
    · rcases eventLt_connex hcb with hlt | hlt
      · rw [hlt] at hbc; cases hbc
      · have := eventLt_trans hlt hca2
        rw [hab] at this
        cases this

/-! ### C8 -/

theorem lexFvLt_iff_lex : ∀ (xs ys : List FieldValue), xs.length = ys.length →
    (lexFvLt xs ys = true ↔ List.Lex (fun x y => fvLt x y = true) xs ys)
  | [], [], _ => by
    simp only [lexFvLt]
    constructor
    · intro h; cases h
    · intro h; cases h
  | [], _ :: _, hlen => by simp at hlen
  | _ :: _, [], hlen => by simp at hlen
  | x :: xs, y :: ys, hlen => by
    have hlen2 : xs.length = ys.length := by simpa using hlen
    by_cases hxy : x = y
    · subst hxy
      rw [lexFvLt, if_neg (by simp)]
      rw [lexFvLt_iff_lex xs ys hlen2]
      constructor
      · exact fun h => List.Lex.cons h
      · intro h
        cases h with
        | cons h => exact h
        | rel h => rw [fvLt_irrefl] at h; cases h
    · rw [lexFvLt, if_pos hxy]
      constructor
      · exact fun h => List.Lex.rel h
      · intro h
        cases h with
        | cons h => exact absurd rfl hxy
        | rel h => exact h

/-- C8: the sort comparator realizes the declared record order — records
with fewer fields come first, records with equal field counts are compared
lexicographically on their (FieldPath, Value) pairs — and it is a strict
weak ordering: irreflexive, transitive, with transitive incomparability,
and two records are incomparable exactly when their field sequences are
fully equal. -/
theorem c8_comparator_is_declared_strict_weak_order :
    (∀ a b : LogEvent, eventLt a b = true ↔ specRecordLt a b) ∧
    (∀ a : LogEvent, eventLt a a = false) ∧
    (∀ a b c : LogEvent,
      eventLt a b = true → eventLt b c = true → eventLt a c = true) ∧
    (∀ a b c : LogEvent,
      eventLt a b = false → eventLt b a = false →
      eventLt b c = false → eventLt c b = false →
      eventLt a c = false ∧ eventLt c a = false) ∧
    (∀ a b : LogEvent, (eventLt a b = false ∧ eventLt b a = false) ↔ a.values = b.values) := by
  refine ⟨?_, eventLt_irrefl, fun a b c => eventLt_trans, ?_, fun a b => eventLt_incomp_iff⟩
  · intro a b
    rw [eventLt, specRecordLt]
    by_cases hlen : a.values.length = b.values.length
    · rw [if_neg (by simpa using hlen)]
      rw [lexFvLt_iff_lex a.values b.values hlen]
      constructor
      · exact fun h => Or.inr ⟨hlen, h⟩
      · rintro (h | ⟨-, h⟩)
        · omega
        · exact h
    · rw [if_pos (by simpa using hlen), decide_eq_true_eq]
      constructor
      · exact fun h => Or.inl h
      · rintro (h | ⟨h, -⟩)
        · exact h
        · exact absurd h hlen
  · intro a b c h1 h2 h3 h4
    have e1 : a.values = b.values := eventLt_incomp_iff.1 ⟨h1, h2⟩
    have e2 : b.values = c.values := eventLt_incomp_iff.1 ⟨h3, h4⟩
    exact eventLt_incomp_iff.2 (e1.trans e2)

/-- Witness for C8, applying the equivalence and transitivity at concrete
records: a one-field record precedes a two-field record, and two equal-count
records are ordered by their first differing value. -/
theorem c8_witness :
    eventLt ⟨42, [⟨fp 1, Value.intV 3⟩]⟩ (mkRec3 5 10 7) = true ∧
    eventLt (mkRec3 5 9 7) (mkRec3 5 10 8) = true := by
  constructor
  · exact (c8_comparator_is_declared_strict_weak_order.1 _ _).2 (Or.inl (by decide))
  · exact c8_comparator_is_declared_strict_weak_order.2.2.1 (mkRec3 5 9 7) cexA
      (mkRec3 5 10 8) (by decide) (by decide)

/-! ### Conformant batches and additive columns -/

theorem isInt_exists {v : Value} (h : v.isInt = true) : ∃ n : Int, v = Value.intV n := by
  cases v with
  | intV n => exact ⟨n, rfl⟩
  | strV s => simp [Value.isInt] at h

theorem conformant_len {skeleton : List FieldPath} {additive : List Nat} {r : LogEvent}
    (h : conformant skeleton additive r) : r.values.length = skeleton.length := by
  have := congrArg List.length h.1
  simpa using this

theorem conformant_path {skeleton : List FieldPath} {additive : List Nat} {r : LogEvent}
    (h : conformant skeleton additive r) (i : Nat) (hi : i < skeleton.length) :
    (r.values.getD i default).mField = skeleton.getD i default := by
  have hl : i < r.values.length := by rw [conformant_len h]; exact hi
  have h0 := congrArg (fun l => l[i]?) h.1
  simp only [List.getElem?_map] at h0
  rw [List.getElem?_eq_getElem hl, List.getElem?_eq_getElem hi] at h0
  simp only [Option.map_some'] at h0
  rw [List.getD_eq_getElem _ _ hl, List.getD_eq_getElem _ _ hi]
  exact Option.some.inj h0

theorem foldInto_length (additive : List Nat) (a b : LogEvent) :
    (foldInto additive a b).values.length = a.values.length ⊓ b.values.length := by
  show (mergeValues additive a.values b.values).length = _
  rw [mergeValues, List.length_zipWith]

theorem foldInto_getD (additive : List Nat) (a b : LogEvent) (i : Nat)
    (hia : i < a.values.length) (hib : i < b.values.length) :
    (foldInto additive a b).values.getD i default =
      (if (a.values.getD i default).mField.pos ∈ additive then
        { b.values.getD i default with
            mValue := (b.values.getD i default).mValue.addAssign
              ((a.values.getD i default).mValue) }
      else b.values.getD i default) := by
  have hz : i < (foldInto additive a b).values.length := by
    rw [foldInto_length]; exact lt_min hia hib
  rw [List.getD_eq_getElem _ _ hz, List.getD_eq_getElem _ _ hia, List.getD_eq_getElem _ _ hib]
  simp only [foldInto, mergeValues, List.getElem_zipWith]

theorem foldInto_paths (additive : List Nat) (a b : LogEvent)
    (hlen : a.values.length = b.values.length) :
    (foldInto additive a b).values.map (fun fv => fv.mField) =
      b.values.map (fun fv => fv.mField) := by
  apply List.ext_getElem
  · simp [foldInto_length, hlen]
  · intro i h1 h2
    have hia : i < a.values.length := by
      have h3 : i < (foldInto additive a b).values.length := by simpa using h1
      rw [foldInto_length, lt_min_iff] at h3
      exact h3.1
    have hib : i < b.values.length := by simpa using h2
    simp only [List.getElem_map]
    have hd := foldInto_getD additive a b i hia hib
    rw [List.getD_eq_getElem _ _ (by rw [foldInto_length]; exact lt_min hia hib),
      List.getD_eq_getElem _ _ hib] at hd
    rw [hd]
    split <;> rfl

theorem conformant_foldInto {skeleton : List FieldPath} {additive : List Nat}
    {a b : LogEvent} (ha : conformant skeleton additive a)
    (hb : conformant skeleton additive b) :
    conformant skeleton additive (foldInto additive a b) := by
  have hlen : a.values.length = b.values.length := by
    rw [conformant_len ha, conformant_len hb]
  refine ⟨by rw [foldInto_paths additive a b hlen, hb.1], ?_⟩
  intro i hi hpos
  have hfl : (foldInto additive a b).values.length = skeleton.length := by
    rw [foldInto_length, hlen, conformant_len hb]
    simp
  have hik : i < skeleton.length := by rw [← hfl]; exact hi
  have hia : i < a.values.length := by rw [conformant_len ha]; exact hik
  have hib : i < b.values.length := by rw [conformant_len hb]; exact hik
  have hap : (a.values.getD i default).mField = skeleton.getD i default :=
    conformant_path ha i hik
  have hbp : (b.values.getD i default).mField = skeleton.getD i default :=
    conformant_path hb i hik
  rw [foldInto_getD additive a b i hia hib] at hpos ⊢
  by_cases hc : (a.values.getD i default).mField.pos ∈ additive
  · rw [if_pos hc] at hpos ⊢
    have hbi : ((b.values.getD i default).mValue).isInt = true := by
      refine hb.2 i hib ?_
      rw [hbp, ← hap]
      exact hc
    have hai : ((a.values.getD i default).mValue).isInt = true := ha.2 i hia hc
    obtain ⟨na, hna⟩ := isInt_exists hai
    obtain ⟨nb, hnb⟩ := isInt_exists hbi
    show ((b.values.getD i default).mValue.addAssign
      ((a.values.getD i default).mValue)).isInt = true
    rw [hna, hnb]
    rfl
  · rw [if_neg hc] at hpos ⊢
    exact hb.2 i hib hpos

theorem intAt_foldInto {skeleton : List FieldPath} {additive : List Nat} {a b : LogEvent}
    (ha : conformant skeleton additive a) (hb : conformant skeleton additive b)
    (i : Nat) (hi : i < skeleton.length)
    (hadd : (skeleton.getD i default).pos ∈ additive) :
    intAt (foldInto additive a b) i = intAt b i + intAt a i := by
  have hia : i < a.values.length := by rw [conformant_len ha]; exact hi
  have hib : i < b.values.length := by rw [conformant_len hb]; exact hi
  have hc : (a.values.getD i default).mField.pos ∈ additive := by
    rw [conformant_path ha i hi]
    exact hadd
  have hai : ((a.values.getD i default).mValue).isInt = true := ha.2 i hia hc
  have hbi : ((b.values.getD i default).mValue).isInt = true := by
    refine hb.2 i hib ?_
    rw [conformant_path hb i hi]
    exact hadd
  obtain ⟨na, hna⟩ := isInt_exists hai
  obtain ⟨nb, hnb⟩ := isInt_exists hbi
  simp only [intAt]
  rw [foldInto_getD additive a b i hia hib, if_pos hc]
  show ((b.values.getD i default).mValue.addAssign
    ((a.values.getD i default).mValue)).intValue = _
  rw [hna, hnb]
  rfl

theorem sumAt_nil (i : Nat) : sumAt [] i = 0 := rfl

theorem sumAt_cons (x : LogEvent) (l : List LogEvent) (i : Nat) :
    sumAt (x :: l) i = intAt x i + sumAt l i := by
  simp [sumAt]

theorem mergeGoAcc_sumAt {skeleton : List FieldPath} (additive : List Nat) (i : Nat)
    (hi : i < skeleton.length) (hadd : (skeleton.getD i default).pos ∈ additive) :
    ∀ (rest : List LogEvent) (acc : LogEvent), conformant skeleton additive acc →
      (∀ r ∈ rest, conformant skeleton additive r) →
      sumAt (mergeGoAcc additive acc rest) i = intAt acc i + sumAt rest i
  | [], acc, _, _ => by simp [mergeGoAcc, sumAt_cons, sumAt_nil]
  | b :: rest, acc, hacc, hrest => by
    have hb : conformant skeleton additive b := hrest b (by simp)
    have hrest2 : ∀ r ∈ rest, conformant skeleton additive r :=
      fun r hr => hrest r (by simp [hr])
    have hlen : acc.values.length = b.values.length := by
      rw [conformant_len hacc, conformant_len hb]
    rw [mergeGoAcc, if_neg (by simpa using hlen)]
    by_cases hc : needMergeCheck additive acc.values b.values = true
    · rw [if_pos hc]
      rw [mergeGoAcc_sumAt additive i hi hadd rest (foldInto additive acc b)
        (conformant_foldInto hacc hb) hrest2]
      rw [intAt_foldInto hacc hb i hi hadd, sumAt_cons]
      omega
    · rw [if_neg hc, sumAt_cons]
      rw [mergeGoAcc_sumAt additive i hi hadd rest b hb hrest2, sumAt_cons]

theorem mergeGoAcc_conformant {skeleton : List FieldPath} (additive : List Nat) :
    ∀ (rest : List LogEvent) (acc : LogEvent), conformant skeleton additive acc →
      (∀ r ∈ rest, conformant skeleton additive r) →
      ∀ o ∈ mergeGoAcc additive acc rest, conformant skeleton additive o
  | [], acc, hacc, _ => by
    intro o ho
    simp only [mergeGoAcc, List.mem_singleton] at ho
    rw [ho]
    exact hacc
  | b :: rest, acc, hacc, hrest => by
    intro o ho
    have hb : conformant skeleton additive b := hrest b (by simp)
    have hrest2 : ∀ r ∈ rest, conformant skeleton additive r :=
      fun r hr => hrest r (by simp [hr])
    have hlen : acc.values.length = b.values.length := by
      rw [conformant_len hacc, conformant_len hb]
    rw [mergeGoAcc, if_neg (by simpa using hlen)] at ho
    by_cases hc : needMergeCheck additive acc.values b.values = true
    · rw [if_pos hc] at ho
      exact mergeGoAcc_conformant additive rest (foldInto additive acc b)
        (conformant_foldInto hacc hb) hrest2 o ho
    · rw [if_neg hc] at ho
      rcases List.mem_cons.1 ho with h | h
      · rw [h]; exact hacc
      · exact mergeGoAcc_conformant additive rest b hb hrest2 o h

theorem sumAt_perm {l l' : List LogEvent} (h : l.Perm l') (i : Nat) :
    sumAt l i = sumAt l' i :=
  (h.map (fun r => intAt r i)).sum_eq

theorem sumIdx_vals (p : Nat) : ∀ (vs : List FieldValue),
    ((vs.filter fun fv => fv.mField.pos == p).map fun fv => fv.mValue.intValue).sum =
      ∑ i ∈ Finset.range vs.length,
        (if (vs.getD i default).mField.pos = p then (vs.getD i default).mValue.intValue
         else 0)
  | [] => by simp
  | v :: vs => by
    simp only [List.length_cons]
    rw [Finset.sum_range_succ']
    simp only [List.getD_cons_succ, List.getD_cons_zero]
    rw [← sumIdx_vals p vs]
    by_cases hc : v.mField.pos = p
    · rw [List.filter_cons, if_pos (by simpa using hc), if_pos hc]
      simp only [List.map_cons, List.sum_cons]
      ring
    · rw [List.filter_cons, if_neg (by simpa using hc), if_neg hc]
      ring

theorem sumPos_cols {skeleton : List FieldPath} {additive : List Nat} (p : Nat) :
    ∀ (l : List LogEvent), (∀ r ∈ l, conformant skeleton additive r) →
      sumPos p l = ∑ i ∈ Finset.range skeleton.length,
        (if (skeleton.getD i default).pos = p then sumAt l i else 0)
  | [], _ => by simp [sumPos, sumAt_nil]
  | r :: l, hl => by
    have hr : conformant skeleton additive r := hl r (by simp)
    have hl2 : ∀ x ∈ l, conformant skeleton additive x := fun x hx => hl x (by simp [hx])
    have h1 : sumPosOne p r = ∑ i ∈ Finset.range skeleton.length,
        (if (skeleton.getD i default).pos = p then intAt r i else 0) := by
      rw [sumPosOne, sumIdx_vals p r.values, conformant_len hr]
      refine Finset.sum_congr rfl ?_
      intro i hi
      rw [Finset.mem_range] at hi
      rw [conformant_path hr i hi]
      rfl
    have h2 : sumPos p (r :: l) = sumPosOne p r + sumPos p l := by
      simp [sumPos]
    rw [h2, h1, sumPos_cols p l hl2]
    simp only [sumAt_cons]
    rw [← Finset.sum_add_distrib]
    refine Finset.sum_congr rfl ?_
    intro i _
    split <;> simp

/-! ### C4 -/

/-- C4: refuted on the code as stated.  A normalized two-record batch whose
records have different field paths at the same index is merge-eligible (the
eligibility loop consults only the left record's position), and merging
adds the left value into a field of a different position: the additive
field 1 carries total 1 in the input but 0 in the output. -/
theorem c4_counterexample :
    sampleReg.pullAtoms 43 = some ⟨[1]⟩ ∧
    normalizeAll sampleReg (fun u => u) 43 [hetA, hetB] = NormResult.ok [hetA, hetB] ∧
    mapAndMergeIsolatedUidsToHostUid sampleReg (fun u => u) 43 [hetA, hetB] =
      Outcome.ok [⟨43, [⟨fp 2, Value.intV 6⟩]⟩] ∧
    sumPos 1 [hetA, hetB] = 1 ∧
    sumPos 1 [⟨43, [⟨fp 2, Value.intV 6⟩]⟩] = 0 := by
  refine ⟨by decide, by decide, by decide, by decide, by decide⟩

/-- C4 (amended): for every nonempty normalized batch whose records conform
to one field-path skeleton and hold integer values at additive positions,
the sum of every additive field across the merged output equals its sum
across the input batch. -/
theorem c4_amended_sum_conservation (additive : List Nat) (skeleton : List FieldPath)
    (data : List LogEvent)
    (hne : data ≠ [])
    (hconf : ∀ r ∈ data, conformant skeleton additive r)
    (p : Nat) (hp : p ∈ additive) :
    sumPos p (mergeGo additive (sortStage data)) = sumPos p data := by
  have hperm : (sortStage data).Perm data := List.perm_insertionSort eLe data
  have hconf2 : ∀ r ∈ sortStage data, conformant skeleton additive r :=
    fun r hr => hconf r (hperm.mem_iff.1 hr)
  rcases hs : sortStage data with _ | ⟨a, rest⟩
  · rw [hs] at hperm
    exact absurd hperm.nil_eq.symm hne
  · rw [hs] at hperm hconf2
    have ha : conformant skeleton additive a := hconf2 a (by simp)
    have hrest : ∀ r ∈ rest, conformant skeleton additive r :=
      fun r hr => hconf2 r (by simp [hr])
    have hout : ∀ o ∈ mergeGoAcc additive a rest, conformant skeleton additive o :=
      mergeGoAcc_conformant additive rest a ha hrest
    show sumPos p (mergeGoAcc additive a rest) = sumPos p data
    rw [sumPos_cols p (mergeGoAcc additive a rest) hout, sumPos_cols p data hconf]
    refine Finset.sum_congr rfl ?_
    intro i hi
    rw [Finset.mem_range] at hi
    by_cases hc : (skeleton.getD i default).pos = p
    · rw [if_pos hc, if_pos hc]
      rw [mergeGoAcc_sumAt additive i hi (by rw [hc]; exact hp) rest a ha hrest]
      rw [← sumAt_cons]
      exact sumAt_perm hperm i
    · rw [if_neg hc, if_neg hc]

/-- Witness for the amended C4: two records of the spec's shape with
additive fields {3, 4}; field 3 sums to 105 both before and after the
merge. -/
theorem c4_witness :
    sumPos 3 (mergeGo [3, 4] (sortStage [mkRec4 10 50 1 100 200, mkRec4 10 50 1 5 6])) =
      sumPos 3 [mkRec4 10 50 1 100 200, mkRec4 10 50 1 5 6] ∧
    sumPos 3 [mkRec4 10 50 1 100 200, mkRec4 10 50 1 5 6] = 105 :=
  ⟨c4_amended_sum_conservation [3, 4] [fp 1, fp 2, fp 3, fp 4]
      [mkRec4 10 50 1 100 200, mkRec4 10 50 1 5 6] (by decide) (by decide) 3 (by decide),
    by decide⟩

/-! ### Masks, merge eligibility and run folding -/

theorem maskV_cons (additive : List Nat) (x : FieldValue) (xs : List FieldValue) :
    maskV additive (x :: xs) =
      (if x.mField.pos ∈ additive then none else some x) :: maskV additive xs := rfl

theorem maskV_length (additive : List Nat) (xs : List FieldValue) :
    (maskV additive xs).length = xs.length := by
  simp [maskV]

theorem needMergeCheck_iff_maskV (additive : List Nat) : ∀ (xs ys : List FieldValue),
    xs.map (fun fv => fv.mField) = ys.map (fun fv => fv.mField) →
    (needMergeCheck additive xs ys = true ↔ maskV additive xs = maskV additive ys)
  | [], [], _ => by simp [needMergeCheck, maskV]
  | [], _ :: _, h => by simp at h
  | _ :: _, [], h => by simp at h
  | x :: xs, y :: ys, h => by
    have h2 : x.mField = y.mField ∧
        xs.map (fun fv => fv.mField) = ys.map (fun fv => fv.mField) := by simpa using h
    obtain ⟨hxy, hmap⟩ := h2
    have hzip : needMergeCheck additive (x :: xs) (y :: ys) =
        ((x == y || decide (x.mField.pos ∈ additive)) &&
          needMergeCheck additive xs ys) := rfl
    rw [hzip, maskV_cons, maskV_cons, Bool.and_eq_true,
      needMergeCheck_iff_maskV additive xs ys hmap]
    by_cases hmem : x.mField.pos ∈ additive
    · have hmem2 : y.mField.pos ∈ additive := by rw [← hxy]; exact hmem
      simp [hmem, hmem2]
    · have hmem2 : y.mField.pos ∉ additive := by rw [← hxy]; exact hmem
      simp [hmem, hmem2, beq_iff_eq]

theorem maskV_mergeValues (additive : List Nat) : ∀ (xs ys : List FieldValue),
    xs.map (fun fv => fv.mField) = ys.map (fun fv => fv.mField) →
    maskV additive (mergeValues additive xs ys) = maskV additive ys
  | [], [], _ => rfl
  | [], _ :: _, h => by simp at h
  | _ :: _, [], h => by simp at h
  | x :: xs, y :: ys, h => by
    have h2 : x.mField = y.mField ∧
        xs.map (fun fv => fv.mField) = ys.map (fun fv => fv.mField) := by simpa using h
    obtain ⟨hxy, hmap⟩ := h2
    have hstep : mergeValues additive (x :: xs) (y :: ys) =
        (if x.mField.pos ∈ additive then { y with mValue := y.mValue.addAssign x.mValue }
         else y) :: mergeValues additive xs ys := rfl
    rw [hstep, maskV_cons, maskV_cons, maskV_mergeValues additive xs ys hmap]
    by_cases hmem : x.mField.pos ∈ additive
    · have hmem2 : y.mField.pos ∈ additive := by rw [← hxy]; exact hmem
      rw [if_pos hmem]
      simp [hmem2]
    · rw [if_neg hmem]

theorem eligible_iff_mask {skeleton : List FieldPath} {additive : List Nat} {a b : LogEvent}
    (ha : conformant skeleton additive a) (hb : conformant skeleton additive b) :
    (needMergeCheck additive a.values b.values = true) ↔
      mask additive a = mask additive b := by
  have hmap : a.values.map (fun fv => fv.mField) = b.values.map (fun fv => fv.mField) := by
    rw [ha.1, hb.1]
  exact needMergeCheck_iff_maskV additive a.values b.values hmap

theorem mask_foldInto {skeleton : List FieldPath} {additive : List Nat} {a b : LogEvent}
    (ha : conformant skeleton additive a) (hb : conformant skeleton additive b) :
    mask additive (foldInto additive a b) = mask additive b := by
  have hmap : a.values.map (fun fv => fv.mField) = b.values.map (fun fv => fv.mField) := by
    rw [ha.1, hb.1]
  show maskV additive (mergeValues additive a.values b.values) = maskV additive b.values
  exact maskV_mergeValues additive a.values b.values hmap

theorem classFold_conformant {skeleton : List FieldPath} (additive : List Nat) :
    ∀ (t : List LogEvent) (acc : LogEvent), conformant skeleton additive acc →
      (∀ x ∈ t, conformant skeleton additive x) →
      conformant skeleton additive (classFold additive acc t)
  | [], acc, hacc, _ => hacc
  | b :: t, acc, hacc, ht => by
    rw [classFold]
    exact classFold_conformant additive t (foldInto additive acc b)
      (conformant_foldInto hacc (ht b (by simp))) (fun x hx => ht x (by simp [hx]))

theorem classFold_mask {skeleton : List FieldPath} (additive : List Nat) :
    ∀ (t : List LogEvent) (acc : LogEvent), conformant skeleton additive acc →
      (∀ x ∈ t, conformant skeleton additive x ∧ mask additive x = mask additive acc) →
      mask additive (classFold additive acc t) = mask additive acc
  | [], acc, _, _ => rfl
  | b :: t, acc, hacc, ht => by
    have hb := ht b (by simp)
    have hfold : mask additive (foldInto additive acc b) = mask additive acc := by
      rw [mask_foldInto hacc hb.1]
      exact hb.2
    rw [classFold]
    rw [classFold_mask additive t (foldInto additive acc b)
      (conformant_foldInto hacc hb.1)
      (fun x hx => ⟨(ht x (by simp [hx])).1, by rw [(ht x (by simp [hx])).2, hfold]⟩)]
    exact hfold

theorem classFold_intAt {skeleton : List FieldPath} (additive : List Nat) (i : Nat)
    (hi : i < skeleton.length) (hadd : (skeleton.getD i default).pos ∈ additive) :
    ∀ (t : List LogEvent) (acc : LogEvent), conformant skeleton additive acc →
      (∀ x ∈ t, conformant skeleton additive x) →
      intAt (classFold additive acc t) i = intAt acc i + sumAt t i
  | [], acc, _, _ => by simp [classFold, sumAt_nil]
  | b :: t, acc, hacc, ht => by
    have hb := ht b (by simp)
    rw [classFold]
    rw [classFold_intAt additive i hi hadd t (foldInto additive acc b)
      (conformant_foldInto hacc hb) (fun x hx => ht x (by simp [hx]))]
    rw [intAt_foldInto hacc hb i hi hadd, sumAt_cons]
    omega

theorem mergeGoAcc_run {skeleton : List FieldPath} (additive : List Nat) :
    ∀ (t : List LogEvent) (acc : LogEvent) (rest : List LogEvent),
      conformant skeleton additive acc →
      (∀ x ∈ t, conformant skeleton additive x ∧ mask additive x = mask additive acc) →
      (∀ y ∈ rest, conformant skeleton additive y) →
      (match rest with
        | [] => True
        | r :: _ => mask additive r ≠ mask additive acc) →
      mergeGoAcc additive acc (t ++ rest) =
        classFold additive acc t :: mergeGo additive rest
  | [], acc, rest, hacc, _, hrest, hhead => by
    cases rest with
    | nil => rfl
    | cons r rs =>
      have hr : conformant skeleton additive r := hrest r (by simp)
      have hlen : acc.values.length = r.values.length := by
        rw [conformant_len hacc, conformant_len hr]
      have hne : mask additive r ≠ mask additive acc := hhead
      show mergeGoAcc additive acc (r :: rs) = _
      rw [mergeGoAcc, if_neg (by simpa using hlen),
        if_neg (fun hc => hne ((eligible_iff_mask hacc hr).1 hc).symm)]
      rfl
  | b :: t, acc, rest, hacc, ht, hrest, hhead => by
    have hb := ht b (by simp)
    have hlen : acc.values.length = b.values.length := by
      rw [conformant_len hacc, conformant_len hb.1]
    have hmf : mask additive (foldInto additive acc b) = mask additive acc := by
      rw [mask_foldInto hacc hb.1]
      exact hb.2
    show mergeGoAcc additive acc (b :: (t ++ rest)) = _
    rw [mergeGoAcc, if_neg (by simpa using hlen),
      if_pos ((eligible_iff_mask hacc hb.1).2 hb.2.symm)]
    rw [mergeGoAcc_run additive t (foldInto additive acc b) rest
      (conformant_foldInto hacc hb.1)
      (fun x hx => ⟨(ht x (by simp [hx])).1, by rw [(ht x (by simp [hx])).2, hmf]⟩)
      hrest
      (by cases rest with
        | nil => trivial
        | cons r rs => rw [hmf]; exact hhead)]
    rfl

theorem mergeGoAcc_keys {skeleton : List FieldPath} (additive : List Nat) :
    ∀ (rest : List LogEvent) (acc : LogEvent), conformant skeleton additive acc →
      (∀ r ∈ rest, conformant skeleton additive r) →
      ∀ o ∈ mergeGoAcc additive acc rest,
        mask additive o ∈ mask additive acc :: rest.map (mask additive)
  | [], acc, _, _ => by
    intro o ho
    simp only [mergeGoAcc, List.mem_singleton] at ho
    simp [ho]
  | b :: rest, acc, hacc, hrest => by
    intro o ho
    have hb : conformant skeleton additive b := hrest b (by simp)
    have hrest2 : ∀ r ∈ rest, conformant skeleton additive r :=
      fun r hr => hrest r (by simp [hr])
    have hlen : acc.values.length = b.values.length := by
      rw [conformant_len hacc, conformant_len hb]
    rw [mergeGoAcc, if_neg (by simpa using hlen)] at ho
    by_cases hc : needMergeCheck additive acc.values b.values = true
    · rw [if_pos hc] at ho
      have := mergeGoAcc_keys additive rest (foldInto additive acc b)
        (conformant_foldInto hacc hb) hrest2 o ho
      rw [mask_foldInto hacc hb] at this
      rcases List.mem_cons.1 this with h | h
      · simp [h]
      · simp only [List.map_cons, List.mem_cons]
        tauto
    · rw [if_neg hc] at ho
      rcases List.mem_cons.1 ho with h | h
      · simp [h]
      · have := mergeGoAcc_keys additive rest b hb hrest2 o h
        rcases List.mem_cons.1 this with h2 | h2
        · simp [h2]
        · simp only [List.map_cons, List.mem_cons]
          tauto

theorem mergeGo_keys {skeleton : List FieldPath} (additive : List Nat)
    (s : List LogEvent) (hs : ∀ r ∈ s, conformant skeleton additive r) :
    ∀ o ∈ mergeGo additive s, mask additive o ∈ s.map (mask additive) := by
  cases s with
  | nil => intro o ho; simp [mergeGo] at ho
  | cons a rest =>
    intro o ho
    exact mergeGoAcc_keys additive rest a (hs a (by simp))
      (fun r hr => hs r (by simp [hr])) o ho

/-! ### Contiguity of merge classes under the sort order -/

theorem additiveSuffix_tail {s : FieldPath} {sk : List FieldPath} {additive : List Nat}
    (h : additiveSuffix (s :: sk) additive) : additiveSuffix sk additive := by
  intro j hj i hij hpi
  have h2 := h (j + 1) (by simp only [List.length_cons]; omega) (i + 1) (by omega)
  rw [List.getD_cons_succ, List.getD_cons_succ] at h2
  exact h2 hpi

theorem additiveSuffix_head_all {s : FieldPath} {sk : List FieldPath} {additive : List Nat}
    (h : additiveSuffix (s :: sk) additive) (hs : s.pos ∈ additive) :
    ∀ j, j < (s :: sk).length → ((s :: sk).getD j default).pos ∈ additive := by
  intro j hj
  exact h j hj 0 (by omega) (by rw [List.getD_cons_zero]; exact hs)

theorem maskV_all_none (additive : List Nat) : ∀ (xs : List FieldValue)
    (sk : List FieldPath), xs.map (fun fv => fv.mField) = sk →
    (∀ j, j < sk.length → (sk.getD j default).pos ∈ additive) →
    maskV additive xs = List.replicate xs.length none
  | [], _, _, _ => rfl
  | x :: xs, sk, h, hall => by
    cases sk with
    | nil => simp at h
    | cons s sk =>
      have h2 : x.mField = s ∧ xs.map (fun fv => fv.mField) = sk := by simpa using h
      have hx : x.mField.pos ∈ additive := by
        rw [h2.1]
        have h0 := hall 0 (by simp)
        rw [List.getD_cons_zero] at h0
        exact h0
      rw [maskV_cons, if_pos hx, List.length_cons, List.replicate_succ]
      congr 1
      refine maskV_all_none additive xs sk h2.2 ?_
      intro j hj
      have h3 := hall (j + 1) (by simp only [List.length_cons]; omega)
      rw [List.getD_cons_succ] at h3
      exact h3

theorem lex_between (additive : List Nat) : ∀ (sk : List FieldPath)
    (u v w : List FieldValue),
    u.map (fun fv => fv.mField) = sk →
    v.map (fun fv => fv.mField) = sk →
    w.map (fun fv => fv.mField) = sk →
    additiveSuffix sk additive →
    (lexFvLt u v = true ∨ u = v) →
    (lexFvLt v w = true ∨ v = w) →
    maskV additive u = maskV additive w →
    maskV additive v = maskV additive u
  | sk, u, v, w, hu, hv, hw, hsuf, Or.inr hequv, _, _ => by rw [hequv]
  | sk, u, v, w, hu, hv, hw, hsuf, Or.inl _, Or.inr heqvw, huw => by
    rw [heqvw, ← huw]
  | [], u, v, w, hu, hv, hw, _, Or.inl hlt, Or.inl _, _ => by
    have hu0 : u = [] := by simpa using hu
    have hv0 : v = [] := by simpa using hv
    rw [hu0, hv0] at hlt
    simp [lexFvLt] at hlt
  | s :: sk, u, v, w, hu, hv, hw, hsuf, Or.inl huv, Or.inl hvw, huw => by
    cases u with
    | nil => simp at hu
    | cons x u2 =>
      cases v with
      | nil => simp at hv
      | cons y v2 =>
        cases w with
        | nil => simp at hw
        | cons z w2 =>
          have hxu : x.mField = s ∧ u2.map (fun fv => fv.mField) = sk := by simpa using hu
          have hyv : y.mField = s ∧ v2.map (fun fv => fv.mField) = sk := by simpa using hv
          have hzw : z.mField = s ∧ w2.map (fun fv => fv.mField) = sk := by simpa using hw
          by_cases hadd : s.pos ∈ additive
          · have hall := additiveSuffix_head_all hsuf hadd
            rw [maskV_all_none additive (y :: v2) (s :: sk) hv hall,
              maskV_all_none additive (x :: u2) (s :: sk) hu hall]
            have hl1 : (y :: v2).length = (s :: sk).length := by
              have := congrArg List.length hv
              simpa using this
            have hl2 : (x :: u2).length = (s :: sk).length := by
              have := congrArg List.length hu
              simpa using this
            rw [hl1, hl2]
          · have hxa : x.mField.pos ∉ additive := by rw [hxu.1]; exact hadd
            have hya : y.mField.pos ∉ additive := by rw [hyv.1]; exact hadd
            have hza : z.mField.pos ∉ additive := by rw [hzw.1]; exact hadd
            rw [maskV_cons, maskV_cons, if_neg hxa, if_neg hza] at huw
            have hxz : x = z ∧ maskV additive u2 = maskV additive w2 := by
              have := List.cons.inj huw
              exact ⟨Option.some.inj this.1, this.2⟩
            have hxy : x = y := by
              by_cases hxy : x = y
              · exact hxy
              · rw [lexFvLt, if_pos hxy] at huv
                by_cases hyz : y = z
                · rw [hyz, hxz.1] at hxy
                  exact absurd rfl hxy
                · rw [lexFvLt, if_pos hyz] at hvw
                  rw [← hxz.1] at hvw
                  rw [fvLt_asymm huv] at hvw
                  cases hvw
            subst hxy
            rw [lexFvLt, if_neg (by simp)] at huv
            have hyz : x = z := hxz.1
            rw [lexFvLt, if_neg (by simp [hyz])] at hvw
            rw [maskV_cons, maskV_cons, if_neg hya]
            have htl := lex_between additive sk u2 v2 w2 hxu.2 hyv.2 hzw.2
              (additiveSuffix_tail hsuf) (Or.inl huv) (Or.inl hvw) hxz.2
            rw [htl]

theorem eLe_lex_or_eq {skeleton : List FieldPath} {additive : List Nat} {x y : LogEvent}
    (hx : conformant skeleton additive x) (hy : conformant skeleton additive y)
    (h : eLe x y) :
    lexFvLt x.values y.values = true ∨ x.values = y.values := by
  have hlen : x.values.length = y.values.length := by
    rw [conformant_len hx, conformant_len hy]
  by_cases hv : x.values = y.values
  · exact Or.inr hv
  · rcases lexFvLt_connex hlen hv with h1 | h1
    · exact Or.inl h1
    · rw [eLe, eventLt, if_neg (by simpa using hlen.symm)] at h
      rw [h1] at h
      cases h

theorem dropWhile_head_false {α : Type} (p : α → Bool) : ∀ (l : List α) (x : α)
    (xs : List α), l.dropWhile p = x :: xs → p x = false
  | [], x, xs, h => by simp at h
  | a :: l, x, xs, h => by
    rw [List.dropWhile_cons] at h
    by_cases hpa : p a = true
    · rw [if_pos hpa] at h
      exact dropWhile_head_false p l x xs h
    · rw [if_neg hpa] at h
      injection h with h1 _
      subst h1
      simpa using hpa

theorem mergeGo_class_unique {skeleton : List FieldPath} (additive : List Nat)
    (hsuf : additiveSuffix skeleton additive) :
    ∀ (n : Nat) (s : List LogEvent), s.length ≤ n →
      List.Pairwise eLe s →
      (∀ r ∈ s, conformant skeleton additive r) →
      ∀ k : List (Option FieldValue), (∃ r, r ∈ s ∧ mask additive r = k) →
      ∃ c cs, s.filter (fun r => mask additive r == k) = c :: cs ∧
        (mergeGo additive s).filter (fun o => mask additive o == k) =
          [classFold additive c cs] := by
  intro n
  induction n with
  | zero =>
    intro s hle _ _ k hk
    obtain ⟨r, hr, _⟩ := hk
    have hs0 : s = [] := List.length_eq_zero.1 (Nat.le_zero.1 hle)
    rw [hs0] at hr
    simp at hr
  | succ n ih =>
    intro s hle hsort hconf k hk
    cases s with
    | nil =>
      obtain ⟨r, hr, _⟩ := hk
      simp at hr
    | cons a tail =>
      obtain ⟨t, rest, ht_def, hrest_def⟩ :
          ∃ t rest, t = tail.takeWhile (fun x => mask additive x == mask additive a) ∧
            rest = tail.dropWhile (fun x => mask additive x == mask additive a) :=
        ⟨_, _, rfl, rfl⟩
      have htail : t ++ rest = tail := by
        rw [ht_def, hrest_def]
        exact List.takeWhile_append_dropWhile _ _
      have hconf_a : conformant skeleton additive a := hconf a (by simp)
      have hconf_tail : ∀ r ∈ tail, conformant skeleton additive r :=
        fun r hr => hconf r (by simp [hr])
      have hsort_tail : List.Pairwise eLe tail := (List.pairwise_cons.1 hsort).2
      have ha_le : ∀ y ∈ tail, eLe a y := (List.pairwise_cons.1 hsort).1
      have ht_sub : ∀ x ∈ t, x ∈ tail := by
        intro x hx
        rw [ht_def] at hx
        exact (List.takeWhile_sublist _).subset hx
      have hrest_sub : ∀ x ∈ rest, x ∈ tail := by
        intro x hx
        rw [hrest_def] at hx
        exact (List.dropWhile_sublist _).subset hx
      have ht_mask : ∀ x ∈ t,
          conformant skeleton additive x ∧ mask additive x = mask additive a := by
        intro x hx
        refine ⟨hconf_tail x (ht_sub x hx), ?_⟩
        rw [ht_def] at hx
        exact beq_iff_eq.1
          (List.mem_takeWhile_imp (p := fun x => mask additive x == mask additive a) hx)
      have hrest_conf : ∀ y ∈ rest, conformant skeleton additive y :=
        fun y hy => hconf_tail y (hrest_sub y hy)
      have hsort_tr : List.Pairwise eLe (t ++ rest) := by rw [htail]; exact hsort_tail
      have hrest_sorted : List.Pairwise eLe rest := (List.pairwise_append.1 hsort_tr).2.1
      have hrest_ne : ∀ y ∈ rest, mask additive y ≠ mask additive a := by
        cases hr : rest with
        | nil =>
          intro y hy
          simp at hy
        | cons r rs =>
          have hrfalse : (mask additive r == mask additive a) = false := by
            refine dropWhile_head_false
              (fun x => mask additive x == mask additive a) tail r rs ?_
            rw [← hrest_def, hr]
          have hrne : mask additive r ≠ mask additive a := by simpa using hrfalse
          intro y hy
          rcases List.mem_cons.1 hy with hy1 | hy2
          · rw [hy1]; exact hrne
          · intro hmask_y
            have hr_rest : r ∈ rest := by rw [hr]; simp
            have hy_rest : y ∈ rest := by rw [hr]; simp [hy2]
            have hconf_r : conformant skeleton additive r := hrest_conf r hr_rest
            have hconf_y : conformant skeleton additive y := hrest_conf y hy_rest
            have h_ar : eLe a r := ha_le r (hrest_sub r hr_rest)
            have h_ry : eLe r y := by
              have h2 : List.Pairwise eLe (r :: rs) := by rw [← hr]; exact hrest_sorted
              exact (List.pairwise_cons.1 h2).1 y hy2
            have huv := eLe_lex_or_eq hconf_a hconf_r h_ar
            have hvw := eLe_lex_or_eq hconf_r hconf_y h_ry
            have hmid := lex_between additive skeleton a.values r.values y.values
              hconf_a.1 hconf_r.1 hconf_y.1 hsuf huv hvw
              (show maskV additive a.values = maskV additive y.values from hmask_y.symm)
            exact hrne hmid
      have hrun := mergeGoAcc_run additive t a rest hconf_a ht_mask hrest_conf
        (by cases hr : rest with
          | nil => trivial
          | cons r rs => exact hrest_ne r (by rw [hr]; simp))
      have hgo : mergeGo additive (a :: tail) =
          classFold additive a t :: mergeGo additive rest := by
        show mergeGoAcc additive a tail = _
        rw [← htail]
        exact hrun
      have hmask_cf : mask additive (classFold additive a t) = mask additive a :=
        classFold_mask additive t a hconf_a ht_mask
      by_cases hka : k = mask additive a
      · subst hka
        refine ⟨a, t, ?_, ?_⟩
        · rw [List.filter_cons, if_pos (by simp)]
          congr 1
          rw [← htail, List.filter_append]
          have h1 : t.filter (fun r => mask additive r == mask additive a) = t :=
            List.filter_eq_self.2 fun x hx => by
              simp only [beq_iff_eq]
              exact (ht_mask x hx).2
          have h2 : rest.filter (fun r => mask additive r == mask additive a) = [] := by
            rw [List.filter_eq_nil_iff]
            intro y hy
            simp only [beq_iff_eq]
            exact hrest_ne y hy
          rw [h1, h2, List.append_nil]
        · rw [hgo, List.filter_cons, if_pos (by simp [hmask_cf])]
          have h3 : (mergeGo additive rest).filter
              (fun o => mask additive o == mask additive a) = [] := by
            rw [List.filter_eq_nil_iff]
            intro o ho
            have hkeys := mergeGo_keys additive rest hrest_conf o ho
            obtain ⟨y, hy, hmy⟩ := List.mem_map.1 hkeys
            simp only [beq_iff_eq]
            rw [← hmy]
            exact hrest_ne y hy
          rw [h3]
      · obtain ⟨r0, hr0, hmask0⟩ := hk
        have hr0_tail : r0 ∈ tail := by
          rcases List.mem_cons.1 hr0 with h | h
          · rw [h] at hmask0
            exact absurd hmask0.symm hka
          · exact h
        have hr0_rest : r0 ∈ rest := by
          rw [← htail] at hr0_tail
          rcases List.mem_append.1 hr0_tail with h | h
          · exact absurd (by rw [← hmask0, (ht_mask r0 h).2]) hka
          · exact h
        have hlen_rest : rest.length ≤ n := by
          have h1 : rest.length ≤ tail.length := by
            rw [hrest_def]
            exact (List.dropWhile_sublist _).length_le
          have h2 : tail.length + 1 ≤ n + 1 := by simpa using hle
          omega
        obtain ⟨c, cs, hfil_rest, hout_rest⟩ := ih rest hlen_rest hrest_sorted hrest_conf k
          ⟨r0, hr0_rest, hmask0⟩
        refine ⟨c, cs, ?_, ?_⟩
        · rw [List.filter_cons,
            if_neg (by simp only [beq_iff_eq]; exact fun h => hka h.symm)]
          rw [← htail, List.filter_append]
          have h1 : t.filter (fun r => mask additive r == k) = [] := by
            rw [List.filter_eq_nil_iff]
            intro x hx
            simp only [beq_iff_eq]
            intro h
            exact hka (by rw [← h, (ht_mask x hx).2])
          rw [h1, List.nil_append]
          exact hfil_rest
        · rw [hgo, List.filter_cons,
            if_neg (by simp only [beq_iff_eq, hmask_cf]; exact fun h => hka h.symm)]
          exact hout_rest

/-! ### C1 -/

/-- C1: refuted on the code as stated.  With additive field 2 preceding the
non-additive field 3 (tag 42), records `cexA` and `cexB` are merge-eligible
and equal on every non-additive field, yet the sort places `cexC` between
them, so the adjacent-pairwise pass merges nothing: the output keeps both
`cexA` and `cexB` (two records with their common non-additive fields, not
one summed record). -/
theorem c1_counterexample :
    sampleReg.pullAtoms 42 = some ⟨[2]⟩ ∧
    mapAndMergeIsolatedUidsToHostUid sampleReg (fun u => u) 42 [cexA, cexB, cexC] =
      Outcome.ok [cexA, cexC, cexB] ∧
    eligibleSpec [2] cexA cexB ∧
    mask [2] cexA = mask [2] cexB ∧
    ((mergeGo [2] (sortStage [cexA, cexB, cexC])).filter
        (fun o => mask [2] o == mask [2] cexA)).length = 2 := by
  exact ⟨rfl, by decide, by decide, by decide, by decide⟩

/-- C1 (amended): for a normalized batch whose records conform to one
field-path skeleton with integer values at additive positions, and whose
additive positions all come after the non-additive positions in sequence
order, the sort places every group of records that agree on all
non-additive fields contiguously, and the single adjacent-pairwise merge
pass collapses each group completely: the output contains exactly one
record with the group's non-additive fields, and its additive fields hold
the sum of the whole group, elementwise. -/
theorem c1_amended_group_collapse (additive : List Nat) (skeleton : List FieldPath)
    (data : List LogEvent)
    (hconf : ∀ r ∈ data, conformant skeleton additive r)
    (hsuf : additiveSuffix skeleton additive)
    (r₁ r₂ : LogEvent) (h1 : r₁ ∈ data) (h2 : r₂ ∈ data)
    (hkey : mask additive r₁ = mask additive r₂) :
    ((mergeGo additive (sortStage data)).filter
        (fun o => mask additive o == mask additive r₁)).length = 1 ∧
    ∀ o ∈ mergeGo additive (sortStage data), mask additive o = mask additive r₁ →
      ∀ i, i < skeleton.length → (skeleton.getD i default).pos ∈ additive →
        intAt o i =
          sumAt (data.filter fun r => mask additive r == mask additive r₁) i := by
  have hperm : (sortStage data).Perm data := List.perm_insertionSort eLe data
  have hconf_s : ∀ r ∈ sortStage data, conformant skeleton additive r :=
    fun r hr => hconf r (hperm.mem_iff.1 hr)
  have hsort : List.Pairwise eLe (sortStage data) := List.sorted_insertionSort eLe data
  have hkpresent : ∃ r, r ∈ sortStage data ∧ mask additive r = mask additive r₁ :=
    ⟨r₁, hperm.mem_iff.2 h1, rfl⟩
  obtain ⟨c, cs, hfil, hout⟩ := mergeGo_class_unique additive hsuf
    (sortStage data).length (sortStage data) le_rfl hsort hconf_s
    (mask additive r₁) hkpresent
  constructor
  · rw [hout]
    rfl
  · intro o ho hmo i hi hadd
    have ho_fil : o ∈ (mergeGo additive (sortStage data)).filter
        (fun o => mask additive o == mask additive r₁) :=
      List.mem_filter.2 ⟨ho, by simp [hmo]⟩
    rw [hout] at ho_fil
    have ho_eq : o = classFold additive c cs := by simpa using ho_fil
    have hc_mem : ∀ x ∈ c :: cs, x ∈ sortStage data := by
      intro x hx
      rw [← hfil] at hx
      exact (List.mem_filter.1 hx).1
    have hc_conf : conformant skeleton additive c := hconf_s c (hc_mem c (by simp))
    have hcs_conf : ∀ x ∈ cs, conformant skeleton additive x :=
      fun x hx => hconf_s x (hc_mem x (by simp [hx]))
    rw [ho_eq, classFold_intAt additive i hi hadd cs c hc_conf hcs_conf]
    rw [← sumAt_cons, ← hfil]
    exact sumAt_perm (hperm.filter _) i

/-- Witness for the amended C1: the spec's scenario shape with additive
fields {3, 4}; the two state-1 records collapse to exactly one output
record. -/
theorem c1_witness :
    ((mergeGo [3, 4] (sortStage specBatch)).filter
        (fun o => mask [3, 4] o == mask [3, 4] (mkRec4 10 50 1 100 200))).length = 1 :=
  (c1_amended_group_collapse [3, 4] [fp 1, fp 2, fp 3, fp 4] specBatch (by decide)
    (by decide) (mkRec4 10 50 1 100 200) (mkRec4 10 50 1 5 6) (by decide) (by decide)
    (by decide)).1

end PullerUtil
